import Mathlib

/-!
Verification development for the chunked-array task-graph core
(`dask/obj.py`): the `Array` entity, the block-wise graph constructor
`atop`, the index-label broadcasting algebra, the lowering rules
(elementwise, two-phase reduction, tensor contraction), the out-of-core
scatter writer and the scalar conversion.

The functions `top`, `broadcast_dimensions`, `concatenate2` and the
name-hashing of `dask.array` live in files of the repository that are
not available here; they are modelled from the specification where
needed, as marked in their doc comments.  Everything else is a direct
translation of `dask/obj.py`.
-/

namespace Dask

/-- A graph key `(identifier, i0, ..., i_{d-1})`: identifier plus
zero-based block coordinates. -/
abbrev Key := String × List ℕ

/-- Opaque syntax of block-local functions handed to the constructor.
`prim k` stands for an arbitrary opaque kernel (e.g. a curried
expression evaluator); the other constructors mirror the combinators
that `obj.py` builds with `toolz.compose`, `curry(concatenate2, ...)`
and `many(...)`. -/
inductive Func where
  | prim : ℕ → Func
  | compose : Func → Func → Func
  | concatenate2 : List ℕ → Func
  | many : Func → Func → List ℕ × List ℕ → Func
  | tensordotF : Func
  | sumF : Func
  | transposeF : List ℕ → Func
deriving DecidableEq, Repr

/-- A task node: a function applied to, for every input array, the list
of that input's block keys it consumes (a singleton when the input has
no contracted dimension). -/
structure Task where
  func : Func
  args : List (List Key)
deriving DecidableEq, Repr

/-- A task graph: finite mapping from keys to task nodes, represented
as an association list (Python `dict`). -/
abbrev Graph := List (Key × Task)

/-- `class Array` of `dask/obj.py`: dask graph, name, shape, blockshape. -/
structure Array where
  dask : Graph
  name : String
  shape : List ℕ
  blockshape : List ℕ
deriving DecidableEq, Repr

/-- `Array.ndim`: `len(self.shape)`. -/
def Array.ndim (A : Array) : ℕ := A.shape.length

/-- `Array.numblocks`: `tuple(int(ceil(a / b)) for a, b in zip(self.shape,
self.blockshape))`, with `ceil(a / b)` the exact ceiling of the true
division, i.e. `(a + b - 1) / b` in natural-number division. -/
def Array.numblocks (A : Array) : List ℕ :=
  (A.shape.zip A.blockshape).map (fun p => (p.1 + p.2 - 1) / p.2)

/-- Nested key structure returned by `Array.keys()`: a Python value that
is either a key tuple or a list of such values. -/
inductive NKeys where
  | leaf : Key → NKeys
  | node : List NKeys → NKeys

/-- Recursion of `Array.keys(*args)` below the `ndim == 0` check: `fuel`
is `ndim - len(args)`; the branch test `len(args) + 1 == ndim` is
`fuel = 1` and each level reads `numblocks[len(args)]`. -/
def keysFrom (name : String) (nb : List ℕ) : ℕ → List ℕ → List NKeys
  | 0, _ => []
  | 1, args => (List.range (nb.getD args.length 0)).map
      (fun i => .leaf (name, args ++ [i]))
  | (f + 2), args => (List.range (nb.getD args.length 0)).map
      (fun i => .node (keysFrom name nb (f + 1) (args ++ [i])))

/-- `Array.keys()`: for `ndim == 0` the list `[(self.name,)]`, otherwise
the nested enumeration of block keys. -/
def Array.keys (A : Array) : List NKeys :=
  if A.ndim = 0 then [.leaf (A.name, [])]
  else keysFrom A.name A.numblocks A.ndim []

/-- The Python value `x.keys()` itself (a list). -/
def Array.keysVal (A : Array) : NKeys := .node A.keys

/-- Row-major Cartesian product of `[0, n)` ranges: `itertools.product
(*[range(d) for d in dims])`, first dimension outermost. -/
def prodRanges : List ℕ → List (List ℕ)
  | [] => [[]]
  | n :: dims => (List.range n).flatMap (fun i => (prodRanges dims).map (i :: ·))

mutual

/-- Leaves of a nested key structure, left to right. -/
def NKeys.leaves : NKeys → List Key
  | .leaf k => [k]
  | .node l => leavesList l

/-- Leaves of each structure in a list, concatenated. -/
def leavesList : List NKeys → List Key
  | [] => []
  | t :: ts => t.leaves ++ leavesList ts

end

mutual

/-- Nesting depth of a nested key structure (a bare key has depth 0). -/
def NKeys.depth : NKeys → ℕ
  | .leaf _ => 0
  | .node l => 1 + depthMax l

/-- Maximum depth over a list of structures (0 for the empty list). -/
def depthMax : List NKeys → ℕ
  | [] => 0
  | t :: ts => max t.depth (depthMax ts)

end

section LabelAlgebra

variable {ι : Type} [DecidableEq ι]

/-- Modelled from the spec: the per-label reconciliation rule of
`broadcast_dimensions` (`dask/array/core.py`, not under `src/`):
all contributed values equal → that value; exactly one distinct value
besides broadcastable 1s → that value; two or more distinct non-1
values → failure; no contribution at all → the label is unknown. -/
def reconcile (vals : List ℕ) : Option ℕ :=
  match vals with
  | [] => none
  | _ :: _ =>
    match (vals.filter (fun x => x ≠ 1)).dedup with
    | [] => some 1
    | [w] => some w
    | _ => none

/-- Values contributed to label `i` by a list of (label-tuple,
value-tuple) pairs: every value standing at a position labelled `i`. -/
def contrib (pairs : List (List ι × List ℕ)) (i : ι) : List ℕ :=
  pairs.flatMap (fun p => ((p.1.zip p.2).filter (fun q => q.1 = i)).map (fun q => q.2))

/-- Resolve every label of a list, failing when any single one fails. -/
def resolveAll (f : ι → Option ℕ) : List ι → Option (List ℕ)
  | [] => some []
  | i :: rest =>
    match f i, resolveAll f rest with
    | some v, some vs => some (v :: vs)
    | _, _ => none

end LabelAlgebra

section Constructor

variable {ι : Type} [DecidableEq ι]

/-- First match wins in an association list of label assignments. -/
def lookupD : List (ι × ℕ) → ι → ℕ
  | [], _ => 0
  | p :: rest, i => if p.1 = i then p.2 else lookupD rest i

/-- One input of the graph constructor: its identifier, its per-dimension
block counts and its label tuple. -/
structure ArgSpec (ι : Type) where
  name : String
  nbs : List ℕ
  ind : List ι

/-- Modelled from the spec: the block keys one input contributes to one
output task (4.3).  Labels of the input appearing in the output read
their coordinate off the output coordinate assignment `outAsg`; the
remaining (contracted) labels of the input range over the Cartesian
product of their block counts, every combination contributing one key. -/
def argKeys (dimOf : ι → ℕ) (outAsg : List (ι × ℕ)) (dummyLabels : List ι)
    (A : ArgSpec ι) : List Key :=
  let mine := dummyLabels.filter (fun d => d ∈ A.ind)
  (prodRanges (mine.map dimOf)).map (fun combo =>
    (A.name, A.ind.map (fun i => lookupD (outAsg ++ mine.zip combo) i)))

/-- The block-count reconciliation of `top`: the label algebra over the
inputs' numblocks. -/
def topDim (argpairs : List (ArgSpec ι)) : ι → Option ℕ :=
  fun i => reconcile (contrib (argpairs.map (fun A => (A.ind, A.nbs))) i)

/-- All labels appearing in the inputs, deduplicated. -/
def topLabels (argpairs : List (ArgSpec ι)) : List ι :=
  (argpairs.flatMap (fun A => A.ind)).dedup

/-- Modelled from the spec: `top` (`dask/array/core.py`, not under
`src/`), the block-wise graph constructor (4.3).  It reconciles block
counts across all labels with the label algebra (4.2), fails on any
mismatch or on an output label absent from every input, and otherwise
produces one task per output block coordinate (the row-major Cartesian
product of the reconciled block counts of the output labels), each task
applying `func` to the block keys every input contributes there. -/
def top (func : Func) (out : String) (out_ind : List ι)
    (argpairs : List (ArgSpec ι)) : Option Graph :=
  match resolveAll (topDim argpairs) (topLabels argpairs) with
  | none => none
  | some _ =>
    match resolveAll (topDim argpairs) out_ind with
    | none => none
    | some outDims =>
      some ((prodRanges outDims).map (fun coords =>
        ((out, coords),
         { func := func,
           args := argpairs.map (argKeys (fun i => (topDim argpairs i).getD 0)
             (out_ind.zip coords)
             ((topLabels argpairs).filter (fun i => i ∉ out_ind))) })))

/-- The inputs of `atop` as constructor inputs: name, numblocks, labels. -/
def argSpecs (args : List (Array × List ι)) : List (ArgSpec ι) :=
  args.map (fun p => ArgSpec.mk p.1.name p.1.numblocks p.2)

/-- The label algebra of 4.2 run over the inputs' shapes. -/
def shapeAlg (args : List (Array × List ι)) : ι → Option ℕ :=
  fun i => reconcile (contrib (args.map (fun p => (p.2, p.1.shape))) i)

/-- The label algebra of 4.2 run over the inputs' blockshapes. -/
def blockAlg (args : List (Array × List ι)) : ι → Option ℕ :=
  fun i => reconcile (contrib (args.map (fun p => (p.2, p.1.blockshape))) i)

/-- All labels appearing in `atop`'s inputs, deduplicated. -/
def atopLabels (args : List (Array × List ι)) : List ι :=
  (args.flatMap (fun p => p.2)).dedup

/-- `atop` of `dask/obj.py`: collect the inputs' numblocks and build the
new task entries with `top`; reconcile the inputs' shapes and
blockshapes with the label algebra and read off the output labels'
values; return a new `Array` with the given output identifier and the
merge of the new entries with every input's graph. -/
def atop (func : Func) (out : String) (out_ind : List ι)
    (args : List (Array × List ι)) : Option Array :=
  match top func out out_ind (argSpecs args) with
  | none => none
  | some dsk =>
    match resolveAll (shapeAlg args) (atopLabels args),
        resolveAll (shapeAlg args) out_ind with
    | some _, some shape =>
      match resolveAll (blockAlg args) (atopLabels args),
          resolveAll (blockAlg args) out_ind with
      | some _, some blockshape =>
        some ⟨dsk ++ (args.map (fun p => p.1.dask)).flatten, out, shape, blockshape⟩
      | _, _ => none
    | _, _ => none

/-- Key set of a graph: the keys of its entries, in order. -/
def graphKeys (g : Graph) : List Key := g.map (fun e => e.1)

end Constructor

/-- `elemwise_array` of `dask/obj.py`: one `atop` call where the output
labels are the reversed dimension ordinals of the expression and every
input is labelled with its own reversed dimension ordinals. -/
def elemwise_array (f : Func) (nexpr : ℕ) (out : String)
    (data : List Array) : Option Array :=
  let expr_inds := (List.range nexpr).reverse
  atop f out expr_inds (data.map (fun d => (d, (List.range d.ndim).reverse)))

/-- `compute_up(Reduction, Array)` of `dask/obj.py`, with the block-local
partial-reduction function `chunkF` and the final aggregation function
`aggF` (produced there by `blaze.expr.split`, an external collaborator)
kept abstract: a chunk-phase `atop` with identity labels, then an
aggregate-phase `atop` whose output labels drop the reduced axes and
whose function is `compose(aggF, curry(concatenate2, axes=axis))`. -/
def compute_up_reduction (chunkF aggF : Func) (axis : List ℕ)
    (n1 n2 : String) (data : Array) : Option Array :=
  let inds := List.range data.ndim
  match atop chunkF n1 inds [(data, inds)] with
  | none => none
  | some tmp =>
    atop (Func.compose aggF (Func.concatenate2 axis)) n2
      (inds.filter (fun i => i ∉ axis)) [(tmp, inds)]

/-- `many` of `dask/obj.py`: apply a binary operator pairwise to two
sequences, then reduce; `map` over two sequences pairs them up to the
shorter one. -/
def many {α β γ δ : Type} (binop : α → β → γ) (reduction : List γ → δ)
    (a : List α) (b : List β) : δ :=
  reduction (List.zipWith binop a b)

/-- `alphabet = 'abcdefghijklmnopqrstuvwxyz'`. -/
def alphabet : List Char := "abcdefghijklmnopqrstuvwxyz".toList

/-- `ALPHABET = alphabet.upper()`. -/
def ALPHABET : List Char := "ABCDEFGHIJKLMNOPQRSTUVWXYZ".toList

/-- The label bookkeeping loop of `compute_up(TensorDot, Array, Array)`:
starting from `out_index = left_index + right_index`, for each
contracted pair `(l, r)` remove `right_index[r]` and `left_index[l]`
from the output labels and overwrite `right_index[r] := left_index[l]`.
Returns the final `(out_index, right_index)`. -/
def tdIndices (laxes raxes : List ℕ) (lhs rhs : Array) :
    List Char × List Char :=
  let left_index := alphabet.take lhs.ndim
  let right_index := ALPHABET.take rhs.ndim
  (laxes.zip raxes).foldl
    (fun (st : List Char × List Char) lr =>
      let oi := st.1.erase (st.2.getD lr.2 ' ')
      let oi2 := oi.erase (left_index.getD lr.1 ' ')
      (oi2, st.2.set lr.2 (left_index.getD lr.1 ' ')))
    (left_index ++ right_index, right_index)

/-- One iteration of the tensordot label loop, with `left_index`
fixed as `L`. -/
def tdStep (L : List Char) (st : List Char × List Char)
    (lr : ℕ × ℕ) : List Char × List Char :=
  ((st.1.erase (st.2.getD lr.2 ' ')).erase (L.getD lr.1 ' '),
   st.2.set lr.2 (L.getD lr.1 ' '))

/-- The right-index half of one tensordot label loop iteration. -/
def tdSetStep (L : List Char) (ri : List Char) (lr : ℕ × ℕ) : List Char :=
  ri.set lr.2 (L.getD lr.1 ' ')

/-- `compute_up(TensorDot, Array, Array)` of `dask/obj.py`: label the
left operand from the lowercase alphabet and the right operand from the
uppercase one; for each contracted axis pair remove the two labels from
the output label list and overwrite the right operand's label with the
left one's; call `atop` with `many(binop=np.tensordot, reduction=sum,
axes=(left_axes, right_axes))` as the block-combining function. -/
def compute_up_tensordot (laxes raxes : List ℕ) (out : String)
    (lhs rhs : Array) : Option Array :=
  atop (Func.many Func.tensordotF Func.sumF (laxes, raxes)) out
    (tdIndices laxes raxes lhs rhs).1
    [(lhs, alphabet.take lhs.ndim), (rhs, (tdIndices laxes raxes lhs rhs).2)]

/-- The spec's words (4.7): the entries of `xs` whose position is not
listed in `axes`, in original order. -/
def remaining {α : Type} (xs : List α) (axes : List ℕ) : List α :=
  (xs.enum.filter (fun p => p.1 ∉ axes)).map (fun p => p.2)

/-- The spec's words (4.5): the block coordinate of the chunk-phase
block gathered for an aggregate-phase output cell: positions on a
reduced axis read the gather combination `combo` (reduced axes taken in
ascending order), surviving positions read the output coordinate `outc`
(surviving axes in ascending order). -/
def gatherCoords (n : ℕ) (axis : List ℕ) (outc combo : List ℕ) : List ℕ :=
  (List.range n).map (fun p =>
    if p ∈ axis then
      combo.getD (((List.range n).filter (fun q => q ∈ axis)).indexOf p) 0
    else
      outc.getD (((List.range n).filter (fun q => q ∉ axis)).indexOf p) 0)

/-- The index region the `store` closure of `insert_to_ooc` writes for
block coordinates `coords`: the half-open slice
`[i * d, (i + 1) * d)` per dimension, `zip`-ped with the blockshape. -/
def store_region (blockshape coords : List ℕ) : List (ℕ × ℕ) :=
  (coords.zip blockshape).map (fun p => (p.1 * p.2, (p.1 + 1) * p.2))

/-- Whether an index point lies in a rectangular region. -/
def inRegion (region : List (ℕ × ℕ)) (x : List ℕ) : Bool :=
  (x.length = region.length) &&
    (region.zip x).all (fun q => q.1.1 ≤ q.2 && q.2 < q.1.2)

/-- `insert_to_ooc` of `dask/obj.py`, viewed through the index ranges it
writes: one store task per flattened key of the array, keyed
`('store-' + name, coords)`, writing the region `store_region`. -/
def insert_to_ooc (arr : Array) : List (Key × List (ℕ × ℕ)) :=
  arr.keysVal.leaves.map (fun t =>
    (("store-" ++ arr.name, t.2), store_region arr.blockshape t.2))

/-- A Python value as `dask_to_float` sees it: a non-iterable scalar or
an iterable list. -/
inductive PyVal where
  | scalar : ℕ → PyVal
  | list : List PyVal → PyVal

mutual

/-- The executor's result for a nested key structure: the same nesting
with each key replaced by its block's (abstract scalar) value. -/
def getNested (v : Key → ℕ) : NKeys → PyVal
  | .leaf k => .scalar (v k)
  | .node l => .list (getNestedList v l)

/-- The executor's result for each structure in a list. -/
def getNestedList (v : Key → ℕ) : List NKeys → List PyVal
  | [] => []
  | t :: ts => getNested v t :: getNestedList v ts

end

/-- The unwrap loop of `dask_to_float`: while the result is iterable,
assert it has length exactly one and take its sole element; a failed
assertion is `none`. -/
def unwrapFloat : PyVal → Option ℕ
  | .scalar v => some v
  | .list [r] => unwrapFloat r
  | .list _ => none

/-- `dask_to_float` of `dask/obj.py`: run the graph on `x.keys()` and
unwrap the nested result down to a scalar. -/
def dask_to_float (A : Array) (v : Key → ℕ) : Option ℕ :=
  unwrapFloat (getNested v A.keysVal)

end Dask

namespace Dask

theorem resolveAll_eq_none_of_mem {ι : Type} {f : ι → Option ℕ} {l : List ι} {i : ι}
    (hi : i ∈ l) (hf : f i = none) : resolveAll f l = none := by
  induction l with
  | nil => cases hi
  | cons a rest ih =>
    rcases List.mem_cons.mp hi with h | h
    · subst h; simp [resolveAll, hf]
    · simp only [resolveAll]
      rw [ih h]
      cases f a <;> rfl

theorem resolveAll_length {ι : Type} {f : ι → Option ℕ} {l : List ι} {vs : List ℕ}
    (h : resolveAll f l = some vs) : vs.length = l.length := by
  induction l generalizing vs with
  | nil => simp [resolveAll] at h; simp [← h]
  | cons a rest ih =>
    simp only [resolveAll] at h
    cases ha : f a with
    | none => rw [ha] at h; exact absurd h (by simp)
    | some v =>
      rw [ha] at h
      cases hr : resolveAll f rest with
      | none => rw [hr] at h; exact absurd h (by simp)
      | some vs' =>
        rw [hr] at h
        simp at h
        simp [← h, ih hr]

theorem resolveAll_of_forall {ι : Type} {f : ι → Option ℕ} {g : ι → ℕ} {l : List ι}
    (h : ∀ i ∈ l, f i = some (g i)) : resolveAll f l = some (l.map g) := by
  induction l with
  | nil => rfl
  | cons a rest ih =>
    simp only [resolveAll]
    rw [h a (List.mem_cons_self a rest), ih (fun i hi => h i (List.mem_cons_of_mem a hi))]
    rfl

theorem reconcile_single {v : ℕ} : reconcile [v] = some v := by
  by_cases h : v = 1 <;> simp [reconcile, h, List.filter, List.dedup]

theorem nat_ceil_div (a b : ℕ) (hb : 0 < b) :
    (a + b - 1) / b = ⌈(a : ℚ) / (b : ℚ)⌉₊ := by
  have hbq : (0 : ℚ) < (b : ℚ) := by exact_mod_cast hb
  apply le_antisymm
  · have h1 : (a : ℚ) / b ≤ (⌈(a : ℚ) / (b : ℚ)⌉₊ : ℚ) := Nat.le_ceil _
    rw [div_le_iff₀ hbq] at h1
    have h3 : a ≤ ⌈(a : ℚ) / (b : ℚ)⌉₊ * b := by exact_mod_cast h1
    have h4 : a + b - 1 < (⌈(a : ℚ) / (b : ℚ)⌉₊ + 1) * b := by
      have he : (⌈(a : ℚ) / (b : ℚ)⌉₊ + 1) * b = ⌈(a : ℚ) / (b : ℚ)⌉₊ * b + b := by ring
      omega
    have h5 := (Nat.div_lt_iff_lt_mul hb).mpr h4
    omega
  · apply Nat.ceil_le.mpr
    rw [div_le_iff₀ hbq]
    have hdm := Nat.div_add_mod (a + b - 1) b
    have hr : (a + b - 1) % b < b := Nat.mod_lt _ hb
    have hmul : b * ((a + b - 1) / b) = ((a + b - 1) / b) * b := by ring
    have h6 : a ≤ ((a + b - 1) / b) * b := by omega
    exact_mod_cast h6

/-- C1: for every `Array`, each entry of the derived `numblocks` equals
the exact rational ceiling `ceil(shape[k] / blockshape[k])` of the
corresponding dimension (positive block size, as the data model
requires). -/
theorem numblocks_eq_ceil (A : Dask.Array) (k : ℕ)
    (hk : k < A.numblocks.length) (hb : 0 < A.blockshape.getD k 0) :
    A.numblocks.getD k 0 =
      ⌈(A.shape.getD k 0 : ℚ) / (A.blockshape.getD k 0 : ℚ)⌉₊ := by
  have hk' := hk
  simp only [Array.numblocks, List.length_map, List.length_zip, lt_min_iff] at hk'
  obtain ⟨hks, hkb⟩ := hk'
  rw [List.getD_eq_getElem _ _ hk, List.getD_eq_getElem _ _ hks,
    List.getD_eq_getElem _ _ hkb] at *
  simp only [Array.numblocks, List.getElem_map, List.getElem_zip]
  exact nat_ceil_div _ _ hb

/-- Witness for C1 at shape 5, blockshape 2: the block count is
`ceil(5/2) = 3`. -/
theorem numblocks_eq_ceil_w :
    0 < (Dask.Array.mk [] "x" [5] [2]).numblocks.length ∧
    (Dask.Array.mk [] "x" [5] [2]).numblocks.getD 0 0 = 3 ∧
    (Dask.Array.mk [] "x" [5] [2]).numblocks.getD 0 0 =
      ⌈((Dask.Array.mk [] "x" [5] [2]).shape.getD 0 0 : ℚ) /
        ((Dask.Array.mk [] "x" [5] [2]).blockshape.getD 0 0 : ℚ)⌉₊ :=
  ⟨by decide, by decide, numblocks_eq_ceil _ 0 (by decide) (by decide)⟩

theorem leavesList_eq_flatMap (l : List NKeys) :
    leavesList l = l.flatMap NKeys.leaves := by
  induction l with
  | nil => rfl
  | cons t ts ih => simp [leavesList, ih]

theorem length_of_mem_prodRanges {dims : List ℕ} {c : List ℕ}
    (h : c ∈ prodRanges dims) : c.length = dims.length := by
  induction dims generalizing c with
  | nil => simp [prodRanges] at h; simp [h]
  | cons n rest ih =>
    simp only [prodRanges, List.mem_flatMap, List.mem_map] at h
    obtain ⟨i, _, c', hc', rfl⟩ := h
    simp [ih hc']

theorem numblocks_length (A : Dask.Array)
    (hlen : A.shape.length = A.blockshape.length) :
    A.numblocks.length = A.ndim := by
  simp [Array.numblocks, Array.ndim, List.length_zip, hlen]

theorem leaves_keysFrom (name : String) (nb : List ℕ) :
    ∀ (f : ℕ) (args : List ℕ), 1 ≤ f → args.length + f = nb.length →
      leavesList (keysFrom name nb f args) =
        (prodRanges (nb.drop args.length)).map (fun c => (name, args ++ c)) := by
  intro f
  induction f using Nat.strong_induction_on with
  | _ f ih =>
  match f with
  | 0 => intro args h0 _; omega
  | 1 =>
    intro args _ hlen
    have hlt : args.length < nb.length := by omega
    have hdrop : nb.drop (args.length + 1) = [] := by
      apply List.drop_eq_nil_of_le; omega
    rw [List.drop_eq_getElem_cons hlt, hdrop]
    rw [show nb[args.length] = nb.getD args.length 0 from
      (List.getD_eq_getElem _ _ hlt).symm]
    simp [keysFrom, prodRanges, leavesList_eq_flatMap, List.flatMap_map,
      NKeys.leaves, List.map_flatMap]
  | (n + 2) =>
    intro args _ hlen
    have hlt : args.length < nb.length := by omega
    rw [List.drop_eq_getElem_cons hlt]
    rw [show nb[args.length] = nb.getD args.length 0 from
      (List.getD_eq_getElem _ _ hlt).symm]
    simp only [keysFrom, prodRanges, leavesList_eq_flatMap, List.flatMap_map,
      NKeys.leaves, List.map_flatMap]
    apply congrArg (fun g => (List.range (nb.getD args.length 0)).flatMap g)
    funext i
    rw [← leavesList_eq_flatMap,
      ih (n + 1) (by omega) (args ++ [i]) (by omega) (by simp; omega)]
    simp [List.map_map, Function.comp]

theorem leaves_keysVal (A : Dask.Array)
    (hlen : A.shape.length = A.blockshape.length) :
    A.keysVal.leaves = (prodRanges A.numblocks).map (fun c => (A.name, c)) := by
  by_cases h0 : A.ndim = 0
  · have hs : A.shape = [] := List.length_eq_zero.mp h0
    have hnb : A.numblocks = [] := by simp [Array.numblocks, hs]
    simp [Array.keysVal, Array.keys, h0, hnb, prodRanges, NKeys.leaves,
      leavesList, NKeys.leaves]
  · have h1 : 1 ≤ A.ndim := Nat.one_le_iff_ne_zero.mpr h0
    have hnb : A.numblocks.length = A.ndim := numblocks_length A hlen
    show NKeys.leaves (.node A.keys) = _
    rw [NKeys.leaves, Array.keys, if_neg h0]
    rw [leaves_keysFrom A.name A.numblocks A.ndim [] h1 (by simp [hnb])]
    simp

theorem depthMax_const {l : List NKeys} {d : ℕ} (hne : l ≠ [])
    (h : ∀ t ∈ l, t.depth = d) : depthMax l = d := by
  induction l with
  | nil => exact absurd rfl hne
  | cons t ts ih =>
    rw [depthMax, h t (List.mem_cons_self t ts)]
    cases ts with
    | nil => simp [depthMax]
    | cons u us =>
      rw [ih (by simp) (fun x hx => h x (List.mem_cons_of_mem t hx))]
      simp

theorem keysFrom_ne_nil (name : String) (nb : List ℕ) (f : ℕ) (hf : 1 ≤ f)
    (args : List ℕ) (hpos : 0 < nb.getD args.length 0) :
    keysFrom name nb f args ≠ [] := by
  cases f with
  | zero => omega
  | succ k =>
    cases k with
    | zero =>
      simp [keysFrom, List.range_eq_nil] at hpos ⊢
      omega
    | succ m =>
      simp [keysFrom, List.range_eq_nil] at hpos ⊢
      omega

theorem depth_keysFrom (name : String) (nb : List ℕ)
    (hb : ∀ b ∈ nb, 0 < b) :
    ∀ (f : ℕ) (args : List ℕ), args.length + f = nb.length →
      ∀ t ∈ keysFrom name nb f args, t.depth = f - 1 := by
  intro f
  induction f using Nat.strong_induction_on with
  | _ f ih =>
  match f with
  | 0 => intro args _ t ht; simp [keysFrom] at ht
  | 1 =>
    intro args _ t ht
    simp only [keysFrom, List.mem_map] at ht
    obtain ⟨i, _, rfl⟩ := ht
    rfl
  | (n + 2) =>
    intro args hlen t ht
    simp only [keysFrom, List.mem_map] at ht
    obtain ⟨i, _, rfl⟩ := ht
    rw [NKeys.depth]
    have hlt1 : args.length + 1 < nb.length := by omega
    have hpos : 0 < nb.getD (args.length + 1) 0 := by
      rw [List.getD_eq_getElem _ _ hlt1]
      exact hb _ (List.getElem_mem hlt1)
    have hne : keysFrom name nb (n + 1) (args ++ [i]) ≠ [] :=
      keysFrom_ne_nil name nb (n + 1) (by omega) (args ++ [i]) (by simpa using hpos)
    have hall : ∀ u ∈ keysFrom name nb (n + 1) (args ++ [i]), u.depth = n := by
      intro u hu
      have := ih (n + 1) (by omega) (args ++ [i]) (by simp; omega) u hu
      simpa using this
    rw [depthMax_const hne hall]
    omega

/-- C4 (amended): for an `Array` respecting the data-model invariants
(equal shape/blockshape lengths, at least one block per dimension), the
leaves of `keys()` enumerate exactly the row-major Cartesian product of
the block grid as `(identifier, coords)` tuples, every element of the
returned list is nested to depth `ndim - 1`, and for `ndim == 0` the
returned value is the singleton list holding the single key. -/
theorem keys_enumeration (A : Dask.Array)
    (hlen : A.shape.length = A.blockshape.length)
    (hb : ∀ b ∈ A.numblocks, 0 < b) :
    A.keysVal.leaves = (prodRanges A.numblocks).map (fun c => (A.name, c))
    ∧ (∀ t ∈ A.keys, t.depth = A.ndim - 1)
    ∧ (A.ndim = 0 → A.keys = [NKeys.leaf (A.name, [])]) := by
  refine ⟨leaves_keysVal A hlen, ?_, ?_⟩
  · intro t ht
    by_cases h0 : A.ndim = 0
    · rw [Array.keys, if_pos h0] at ht
      simp only [List.mem_singleton] at ht
      subst ht
      simp [NKeys.depth, h0]
    · rw [Array.keys, if_neg h0] at ht
      exact depth_keysFrom A.name A.numblocks hb A.ndim []
        (by simp [numblocks_length A hlen]) t ht
  · intro h0
    rw [Array.keys, if_pos h0]

/-- Witness for C4 at shape (10,10), blockshape (5,5): `keys()` is the
2×2 nested enumeration from the scenario, and the amended claim applies. -/
theorem keys_enumeration_w :
    (Dask.Array.mk [] "x" [10,10] [5,5]).keys =
      [NKeys.node [NKeys.leaf ("x",[0,0]), NKeys.leaf ("x",[0,1])],
       NKeys.node [NKeys.leaf ("x",[1,0]), NKeys.leaf ("x",[1,1])]]
    ∧ ((Dask.Array.mk [] "x" [10,10] [5,5]).keysVal.leaves =
        (prodRanges (Dask.Array.mk [] "x" [10,10] [5,5]).numblocks).map
          (fun c => ((Dask.Array.mk [] "x" [10,10] [5,5]).name, c))
      ∧ (∀ t ∈ (Dask.Array.mk [] "x" [10,10] [5,5]).keys,
          t.depth = (Dask.Array.mk [] "x" [10,10] [5,5]).ndim - 1)
      ∧ ((Dask.Array.mk [] "x" [10,10] [5,5]).ndim = 0 →
          (Dask.Array.mk [] "x" [10,10] [5,5]).keys = [NKeys.leaf ("x", [])])) :=
  ⟨rfl, keys_enumeration _ rfl (by decide)⟩

/-- C4 counterexample: a zero-dimensional array's `keys()` is the
singleton list `[(id,)]`, not the bare key `(id,)`; and for an array
with a zero-block dimension (shape `[2,0,2]`, blockshape `[1,1,1]`,
so `ndim = 3`) the nesting is truncated at depth 1, not `ndim - 1 = 2`. -/
theorem keys_claim_cex :
    ((Dask.Array.mk [] "z" [] []).keysVal = NKeys.node [NKeys.leaf ("z", [])]
      ∧ ∀ k : Key, (Dask.Array.mk [] "z" [] []).keysVal ≠ NKeys.leaf k)
    ∧ ∃ t ∈ (Dask.Array.mk [] "w" [2,0,2] [1,1,1]).keys,
        t.depth ≠ (Dask.Array.mk [] "w" [2,0,2] [1,1,1]).ndim - 1 := by
  refine ⟨⟨rfl, fun k h => NKeys.noConfusion h⟩, ⟨NKeys.node [], ?_, ?_⟩⟩
  · show NKeys.node [] ∈ Dask.Array.keys _
    have hkeys : (Dask.Array.mk [] "w" [2,0,2] [1,1,1]).keys =
        [NKeys.node [], NKeys.node []] := rfl
    rw [hkeys]
    exact List.mem_cons_self _ _
  · show NKeys.depth (NKeys.node []) ≠ _
    simp [NKeys.depth, depthMax, Dask.Array.ndim]

theorem getNestedList_length (v : Key → ℕ) (l : List NKeys) :
    (getNestedList v l).length = l.length := by
  induction l with
  | nil => rfl
  | cons t ts ih => simp [getNestedList, ih]

theorem unwrap_list_ne_one {l : List PyVal} (h : l.length ≠ 1) :
    unwrapFloat (.list l) = none := by
  match l with
  | [] => rfl
  | [x] => simp at h
  | x :: y :: rest => rfl

theorem unwrap_list_map_leaf (v : Key → ℕ) (g : ℕ → Key) (m : ℕ) :
    (unwrapFloat (.list (getNestedList v
      ((List.range m).map (fun i => NKeys.leaf (g i)))))).isSome ↔ m = 1 := by
  cases m with
  | zero => simp [getNestedList, unwrapFloat]
  | succ k =>
    cases k with
    | zero => simp [List.range_succ, List.range_zero, getNestedList, getNested, unwrapFloat]
    | succ j =>
      rw [unwrap_list_ne_one (by rw [getNestedList_length]; simp)]
      simp

theorem unwrap_list_map_node (v : Key → ℕ) (g : ℕ → List NKeys) (m : ℕ) :
    (unwrapFloat (.list (getNestedList v
        ((List.range m).map (fun i => NKeys.node (g i)))))).isSome
      ↔ (m = 1 ∧ (unwrapFloat (.list (getNestedList v (g 0)))).isSome) := by
  cases m with
  | zero => simp [getNestedList, unwrapFloat]
  | succ k =>
    cases k with
    | zero => simp [List.range_succ, List.range_zero, getNestedList, getNested, unwrapFloat]
    | succ j =>
      rw [unwrap_list_ne_one (by rw [getNestedList_length]; simp)]
      simp

theorem unwrap_keysFrom (v : Key → ℕ) (name : String) (nb : List ℕ) :
    ∀ (f : ℕ) (args : List ℕ), 1 ≤ f → args.length + f = nb.length →
      ((unwrapFloat (.list (getNestedList v (keysFrom name nb f args)))).isSome
        ↔ ∀ b ∈ nb.drop args.length, b = 1) := by
  intro f
  induction f using Nat.strong_induction_on with
  | _ f ih =>
  cases f with
  | zero => intro args h0 _; omega
  | succ k =>
  cases k with
  | zero =>
    intro args _ hlen
    have hlt : args.length < nb.length := by omega
    have hdrop : nb.drop (args.length + 1) = [] := List.drop_eq_nil_of_le (by omega)
    rw [List.drop_eq_getElem_cons hlt, hdrop]
    rw [show nb[args.length] = nb.getD args.length 0 from
      (List.getD_eq_getElem _ _ hlt).symm]
    simp only [keysFrom]
    rw [unwrap_list_map_leaf]
    simp
  | succ k' =>
    intro args _ hlen
    have hlt : args.length < nb.length := by omega
    rw [List.drop_eq_getElem_cons hlt]
    rw [show nb[args.length] = nb.getD args.length 0 from
      (List.getD_eq_getElem _ _ hlt).symm]
    simp only [keysFrom]
    rw [unwrap_list_map_node]
    rw [ih (k' + 1) (by omega) (args ++ [0]) (by omega) (by simp; omega)]
    simp

/-- C10: converting a chunked array to a scalar float succeeds exactly
when every dimension has a single block; with more than one block along
some dimension the length-1 assertion in the unwrap loop fails and no
value is returned. -/
theorem dask_to_float_iff (A : Dask.Array) (v : Key → ℕ)
    (hlen : A.shape.length = A.blockshape.length) :
    (dask_to_float A v).isSome ↔ ∀ b ∈ A.numblocks, b = 1 := by
  by_cases h0 : A.ndim = 0
  · have hs : A.shape = [] := List.length_eq_zero.mp h0
    have hnb : A.numblocks = [] := by simp [Dask.Array.numblocks, hs]
    rw [dask_to_float, Array.keysVal, Array.keys, if_pos h0, hnb]
    simp [getNested, getNestedList, unwrapFloat]
  · have h1 : 1 ≤ A.ndim := Nat.one_le_iff_ne_zero.mpr h0
    have hnb : A.numblocks.length = A.ndim := numblocks_length A hlen
    rw [dask_to_float, Array.keysVal, Array.keys, if_neg h0]
    rw [show getNested v (.node (keysFrom A.name A.numblocks A.ndim [])) =
      .list (getNestedList v (keysFrom A.name A.numblocks A.ndim [])) from rfl]
    have := unwrap_keysFrom v A.name A.numblocks A.ndim [] h1 (by simp [hnb])
    simpa using this

/-- Witness for C10: a 2×2-block array is rejected (the conversion is
`none` and indeed not every dimension has one block). -/
theorem dask_to_float_iff_w :
    ((dask_to_float (Dask.Array.mk [] "x" [10,10] [5,5]) (fun _ => 3)).isSome
      ↔ ∀ b ∈ (Dask.Array.mk [] "x" [10,10] [5,5]).numblocks, b = 1)
    ∧ dask_to_float (Dask.Array.mk [] "x" [10,10] [5,5]) (fun _ => 3) = none :=
  ⟨dask_to_float_iff _ _ rfl, by decide⟩

theorem interval_disjoint {i j d x : ℕ} (hd : 0 < d) (hij : i ≠ j)
    (h1 : i * d ≤ x) (h2 : x < (i + 1) * d)
    (h3 : j * d ≤ x) (h4 : x < (j + 1) * d) : False := by
  rcases Nat.lt_or_ge i j with h | h
  · have := Nat.mul_le_mul_right d (show i + 1 ≤ j from h)
    omega
  · have hji : j < i := lt_of_le_of_ne h hij.symm
    have := Nat.mul_le_mul_right d (show j + 1 ≤ i from hji)
    omega

theorem inRegion_iff {region : List (ℕ × ℕ)} {x : List ℕ} :
    inRegion region x = true ↔
      x.length = region.length ∧ ∀ q ∈ region.zip x, q.1.1 ≤ q.2 ∧ q.2 < q.1.2 := by
  simp [inRegion, List.all_eq_true, Bool.and_eq_true, decide_eq_true_eq]

/-- C9: every store task of `insert_to_ooc` writes exactly the
half-open rectangle `[i_k * blockshape[k], (i_k + 1) * blockshape[k])`
for its block coordinates, and tasks of distinct block coordinates
write pairwise disjoint rectangles. -/
theorem store_tasks_disjoint (arr : Dask.Array)
    (hlen : arr.shape.length = arr.blockshape.length)
    (hb : ∀ d ∈ arr.blockshape, 0 < d) :
    ∀ e1 ∈ insert_to_ooc arr, ∀ e2 ∈ insert_to_ooc arr,
      e1.2 = store_region arr.blockshape e1.1.2
      ∧ (e1.1.2 ≠ e2.1.2 → ∀ x : List ℕ,
          ¬(inRegion e1.2 x = true ∧ inRegion e2.2 x = true)) := by
  intro e1 he1 e2 he2
  simp only [insert_to_ooc, List.mem_map] at he1 he2
  obtain ⟨t1, ht1, rfl⟩ := he1
  obtain ⟨t2, ht2, rfl⟩ := he2
  refine ⟨rfl, ?_⟩
  dsimp only
  have hcoordlen : ∀ t ∈ arr.keysVal.leaves, t.2.length = arr.blockshape.length := by
    intro t ht
    rw [leaves_keysVal arr hlen] at ht
    simp only [List.mem_map] at ht
    obtain ⟨c, hc, rfl⟩ := ht
    have := length_of_mem_prodRanges hc
    simp only [this, numblocks_length arr hlen]
    exact hlen ▸ rfl
  have hc1 : t1.2.length = arr.blockshape.length := hcoordlen t1 ht1
  have hc2 : t2.2.length = arr.blockshape.length := hcoordlen t2 ht2
  intro hne x hx
  obtain ⟨hx1, hx2⟩ := hx
  have hex : ∃ k, k < t1.2.length ∧ t1.2.getD k 0 ≠ t2.2.getD k 0 := by
    by_contra hno
    push_neg at hno
    apply hne
    apply List.ext_getElem (by rw [hc1, hc2])
    intro n h1 h2
    have := hno n (by omega)
    rwa [List.getD_eq_getElem _ _ h1, List.getD_eq_getElem _ _ h2] at this
  obtain ⟨k, hk, hkne⟩ := hex
  have hkb : k < arr.blockshape.length := by omega
  have hk2 : k < t2.2.length := by omega
  rw [inRegion_iff] at hx1 hx2
  obtain ⟨hxl1, hall1⟩ := hx1
  obtain ⟨hxl2, hall2⟩ := hx2
  have hr1 : (store_region arr.blockshape t1.2).length = t1.2.length := by
    simp [store_region, List.length_zip]
    omega
  have hr2 : (store_region arr.blockshape t2.2).length = t2.2.length := by
    simp [store_region, List.length_zip]
    omega
  have hkx : k < x.length := by omega
  have hkr1 : k < (store_region arr.blockshape t1.2).length := by omega
  have hkr2 : k < (store_region arr.blockshape t2.2).length := by omega
  have hmem1 : ((store_region arr.blockshape t1.2)[k], x[k]) ∈
      (store_region arr.blockshape t1.2).zip x := by
    have hkz : k < ((store_region arr.blockshape t1.2).zip x).length := by
      rw [List.length_zip]
      exact lt_min_iff.mpr ⟨hkr1, hkx⟩
    have hz : ((store_region arr.blockshape t1.2).zip x)[k] =
        ((store_region arr.blockshape t1.2)[k], x[k]) := List.getElem_zip
    rw [← hz]
    exact List.getElem_mem hkz
  have hmem2 : ((store_region arr.blockshape t2.2)[k], x[k]) ∈
      (store_region arr.blockshape t2.2).zip x := by
    have hkz : k < ((store_region arr.blockshape t2.2).zip x).length := by
      rw [List.length_zip]
      exact lt_min_iff.mpr ⟨hkr2, hkx⟩
    have hz : ((store_region arr.blockshape t2.2).zip x)[k] =
        ((store_region arr.blockshape t2.2)[k], x[k]) := List.getElem_zip
    rw [← hz]
    exact List.getElem_mem hkz
  have h1 := hall1 _ hmem1
  have h2 := hall2 _ hmem2
  have he1 : (store_region arr.blockshape t1.2)[k] =
      (t1.2[k] * arr.blockshape[k], (t1.2[k] + 1) * arr.blockshape[k]) := by
    simp [store_region, List.getElem_map, List.getElem_zip]
  have he2 : (store_region arr.blockshape t2.2)[k] =
      (t2.2[k] * arr.blockshape[k], (t2.2[k] + 1) * arr.blockshape[k]) := by
    simp [store_region, List.getElem_map, List.getElem_zip]
  rw [he1] at h1
  rw [he2] at h2
  have hdpos : 0 < arr.blockshape[k] := hb _ (List.getElem_mem hkb)
  have hij : t1.2[k] ≠ t2.2[k] := by
    rwa [List.getD_eq_getElem _ _ hk, List.getD_eq_getElem _ _ hk2] at hkne
  exact interval_disjoint hdpos hij h1.1 h1.2 h2.1 h2.2

/-- Witness for C9 on a (10,10)/(5,5) array: the entry for block (0,1)
writes exactly rows [0,5) and columns [5,10), and the regions of blocks
(0,1) and (1,0) are disjoint (e.g. the point (0,5) lies only in the
first). -/
theorem store_tasks_disjoint_w :
    (("store-x", [0, 1]), store_region [5,5] [0,1]) ∈
        insert_to_ooc (Dask.Array.mk [] "x" [10,10] [5,5])
    ∧ (("store-x", [1, 0]), store_region [5,5] [1,0]) ∈
        insert_to_ooc (Dask.Array.mk [] "x" [10,10] [5,5])
    ∧ store_region [5,5] [0,1] = [(0,5),(5,10)]
    ∧ ¬(inRegion (store_region [5,5] [0,1]) [0,5] = true
        ∧ inRegion (store_region [5,5] [1,0]) [0,5] = true) := by
  refine ⟨by decide, by decide, by decide, ?_⟩
  have h := store_tasks_disjoint (Dask.Array.mk [] "x" [10,10] [5,5]) rfl
    (by decide)
    (("store-x", [0, 1]), store_region [5,5] [0,1]) (by decide)
    (("store-x", [1, 0]), store_region [5,5] [1,0]) (by decide)
  exact h.2 (by decide) [0,5]

theorem top_eq_some {ι : Type} [DecidableEq ι] {func : Func} {out : String}
    {out_ind : List ι} {aps : List (ArgSpec ι)} {G : Graph}
    (h : top func out out_ind aps = some G) :
    ∃ ds od, resolveAll (topDim aps) (topLabels aps) = some ds
      ∧ resolveAll (topDim aps) out_ind = some od
      ∧ G = (prodRanges od).map (fun coords =>
          ((out, coords),
           { func := func,
             args := aps.map (argKeys (fun i => (topDim aps i).getD 0)
               (out_ind.zip coords)
               ((topLabels aps).filter (fun i => i ∉ out_ind))) })) := by
  simp only [top] at h
  cases h1 : resolveAll (topDim aps) (topLabels aps) with
  | none => rw [h1] at h; exact absurd h (by simp)
  | some ds =>
    rw [h1] at h
    cases h2 : resolveAll (topDim aps) out_ind with
    | none => rw [h2] at h; exact absurd h (by simp)
    | some od =>
      rw [h2] at h
      simp only [Option.some.injEq] at h
      exact ⟨ds, od, rfl, rfl, h.symm⟩

theorem atop_eq_some {ι : Type} [DecidableEq ι] {func : Func} {out : String}
    {out_ind : List ι} {args : List (Dask.Array × List ι)} {A : Dask.Array}
    (h : atop func out out_ind args = some A) :
    ∃ dsk, top func out out_ind (argSpecs args) = some dsk
      ∧ resolveAll (shapeAlg args) out_ind = some A.shape
      ∧ resolveAll (blockAlg args) out_ind = some A.blockshape
      ∧ A.name = out
      ∧ A.dask = dsk ++ (args.map (fun p => p.1.dask)).flatten := by
  simp only [atop] at h
  cases h1 : top func out out_ind (argSpecs args) with
  | none => rw [h1] at h; exact absurd h (by simp)
  | some dsk =>
    rw [h1] at h
    cases h2 : resolveAll (shapeAlg args) (atopLabels args) with
    | none => rw [h2] at h; exact absurd h (by simp)
    | some s0 =>
      rw [h2] at h
      cases h3 : resolveAll (shapeAlg args) out_ind with
      | none => rw [h3] at h; exact absurd h (by simp)
      | some shape =>
        rw [h3] at h
        cases h4 : resolveAll (blockAlg args) (atopLabels args) with
        | none => rw [h4] at h; exact absurd h (by simp)
        | some b0 =>
          rw [h4] at h
          cases h5 : resolveAll (blockAlg args) out_ind with
          | none => rw [h5] at h; exact absurd h (by simp)
          | some blockshape =>
            rw [h5] at h
            simp only [Option.some.injEq] at h
            subst h
            exact ⟨dsk, rfl, rfl, rfl, rfl, rfl⟩

/-- C2: a successful `atop` returns an array named by the output
identifier, whose shape and blockshape are read off the label algebra
run over the inputs' shapes and blockshapes respectively (restricted to
the output labels, in order), and whose graph's keys are exactly the
union of the new constructor entries with every input's graph keys. -/
theorem atop_spec {ι : Type} [DecidableEq ι] (func : Func) (out : String)
    (out_ind : List ι) (args : List (Dask.Array × List ι)) (A : Dask.Array)
    (h : atop func out out_ind args = some A) :
    A.name = out
    ∧ resolveAll (shapeAlg args) out_ind = some A.shape
    ∧ resolveAll (blockAlg args) out_ind = some A.blockshape
    ∧ ∃ dsk, top func out out_ind (argSpecs args) = some dsk
        ∧ (∀ k : Key, k ∈ graphKeys A.dask ↔
            k ∈ graphKeys dsk ∨ ∃ p ∈ args, k ∈ graphKeys p.1.dask) := by
  obtain ⟨dsk, htop, hs, hb, hn, hd⟩ := atop_eq_some h
  refine ⟨hn, hs, hb, dsk, htop, ?_⟩
  intro k
  rw [hd]
  unfold graphKeys
  rw [List.map_append, List.mem_append]
  constructor
  · intro hk
    cases hk with
    | inl hk => exact Or.inl hk
    | inr hk =>
      right
      rw [List.mem_map] at hk
      obtain ⟨e, he, rfl⟩ := hk
      rw [List.mem_flatten] at he
      obtain ⟨l, hl, hel⟩ := he
      rw [List.mem_map] at hl
      obtain ⟨p, hp, rfl⟩ := hl
      exact ⟨p, hp, List.mem_map.mpr ⟨e, hel, rfl⟩⟩
  · intro hk
    cases hk with
    | inl hk => exact Or.inl hk
    | inr hk =>
      right
      obtain ⟨p, hp, hkp⟩ := hk
      rw [List.mem_map] at hkp ⊢
      obtain ⟨e, hel, rfl⟩ := hkp
      exact ⟨e, List.mem_flatten.mpr ⟨p.1.dask, List.mem_map.mpr ⟨p, hp, rfl⟩, hel⟩, rfl⟩

/-- Witness for C2 on a one-block input: the output array is named by
the output identifier, carries the reconciled shape/blockshape `[5]`,
and its keys are the new key plus the input's key. -/
theorem atop_spec_w :
    (Dask.Array.mk
        [(("z",[0]), ⟨Func.prim 1, [[("x",[0])]]⟩),
         (("x",[0]), ⟨Func.prim 0, []⟩)] "z" [5] [5]).name = "z"
    ∧ resolveAll (shapeAlg [((Dask.Array.mk [(("x",[0]), ⟨Func.prim 0, []⟩)] "x" [5] [5]), [0])]) [0] =
        some (Dask.Array.mk
          [(("z",[0]), ⟨Func.prim 1, [[("x",[0])]]⟩),
           (("x",[0]), ⟨Func.prim 0, []⟩)] "z" [5] [5]).shape
    ∧ resolveAll (blockAlg [((Dask.Array.mk [(("x",[0]), ⟨Func.prim 0, []⟩)] "x" [5] [5]), [0])]) [0] =
        some (Dask.Array.mk
          [(("z",[0]), ⟨Func.prim 1, [[("x",[0])]]⟩),
           (("x",[0]), ⟨Func.prim 0, []⟩)] "z" [5] [5]).blockshape
    ∧ ∃ dsk, top (Func.prim 1) "z" [0]
          (argSpecs [((Dask.Array.mk [(("x",[0]), ⟨Func.prim 0, []⟩)] "x" [5] [5]), [0])]) = some dsk
        ∧ (∀ k : Key, k ∈ graphKeys (Dask.Array.mk
              [(("z",[0]), ⟨Func.prim 1, [[("x",[0])]]⟩),
               (("x",[0]), ⟨Func.prim 0, []⟩)] "z" [5] [5]).dask ↔
            k ∈ graphKeys dsk ∨ ∃ p ∈ [((Dask.Array.mk [(("x",[0]), ⟨Func.prim 0, []⟩)] "x" [5] [5]), [0])],
              k ∈ graphKeys p.1.dask) :=
  atop_spec (Func.prim 1) "z" [0]
    [((Dask.Array.mk [(("x",[0]), ⟨Func.prim 0, []⟩)] "x" [5] [5]), [0])]
    (Dask.Array.mk
      [(("z",[0]), ⟨Func.prim 1, [[("x",[0])]]⟩),
       (("x",[0]), ⟨Func.prim 0, []⟩)] "z" [5] [5])
    (by decide)

theorem reconcile_none_of_two {vals : List ℕ} {v1 v2 : ℕ}
    (h1 : v1 ∈ vals) (h2 : v2 ∈ vals) (hne : v1 ≠ v2)
    (h11 : v1 ≠ 1) (h21 : v2 ≠ 1) : reconcile vals = none := by
  cases vals with
  | nil => cases h1
  | cons a rest =>
    simp only [reconcile]
    have hv1 : v1 ∈ ((a :: rest).filter (fun x => x ≠ 1)).dedup := by
      rw [List.mem_dedup, List.mem_filter]
      exact ⟨h1, by simp [h11]⟩
    have hv2 : v2 ∈ ((a :: rest).filter (fun x => x ≠ 1)).dedup := by
      rw [List.mem_dedup, List.mem_filter]
      exact ⟨h2, by simp [h21]⟩
    cases hd : ((a :: rest).filter (fun x => x ≠ 1)).dedup with
    | nil => rw [hd] at hv1; cases hv1
    | cons b t =>
      cases t with
      | nil =>
        rw [hd] at hv1 hv2
        simp only [List.mem_singleton] at hv1 hv2
        exact absurd (hv1.trans hv2.symm) hne
      | cons c t2 => rfl

theorem mem_contrib {ι : Type} [DecidableEq ι] {pairs : List (List ι × List ℕ)}
    {pr : List ι × List ℕ} (hpr : pr ∈ pairs) {i : ι} {v : ℕ}
    (hv : (i, v) ∈ pr.1.zip pr.2) : v ∈ contrib pairs i := by
  unfold contrib
  rw [List.mem_flatMap]
  refine ⟨pr, hpr, ?_⟩
  rw [List.mem_map]
  exact ⟨(i, v), List.mem_filter.mpr ⟨hv, by simp⟩, rfl⟩

theorem contrib_eq_nil {ι : Type} [DecidableEq ι] {pairs : List (List ι × List ℕ)}
    {i : ι} (h : ∀ pr ∈ pairs, i ∉ pr.1) : contrib pairs i = [] := by
  apply List.eq_nil_iff_forall_not_mem.mpr
  intro v hv
  unfold contrib at hv
  rw [List.mem_flatMap] at hv
  obtain ⟨pr, hpr, hin⟩ := hv
  rw [List.mem_map] at hin
  obtain ⟨q, hq, rfl⟩ := hin
  rw [List.mem_filter] at hq
  have hq1 : q.1 = i := by simpa using hq.2
  have : q.1 ∈ pr.1 := (List.of_mem_zip (by simpa using hq.1)).1
  exact h pr hpr (hq1 ▸ this)

/-- C3: `atop` fails fast: on a label-reconciliation mismatch (two
inputs disagreeing on a shared label's size where neither size is the
broadcastable 1) or on an output label absent from every input, no
array and no partial graph is returned — the whole call yields `none`
before any task entry exists. -/
theorem atop_fail_fast {ι : Type} [DecidableEq ι] (func : Func) (out : String)
    (out_ind : List ι) (args : List (Dask.Array × List ι))
    (h : (∃ p1 ∈ args, ∃ p2 ∈ args, ∃ q1 ∈ p1.2.zip p1.1.shape,
            ∃ q2 ∈ p2.2.zip p2.1.shape,
            q1.1 = q2.1 ∧ q1.2 ≠ q2.2 ∧ q1.2 ≠ 1 ∧ q2.2 ≠ 1)
        ∨ (∃ i ∈ out_ind, ∀ p ∈ args, i ∉ p.2)) :
    atop func out out_ind args = none := by
  cases h with
  | inl h =>
    obtain ⟨p1, hp1, p2, hp2, q1, hq1, q2, hq2, heq, hne, h11, h21⟩ := h
    have hm1 : q1.2 ∈ contrib (args.map (fun p => (p.2, p.1.shape))) q1.1 :=
      mem_contrib (List.mem_map.mpr ⟨p1, hp1, rfl⟩) (by simpa using hq1)
    have hm2 : q2.2 ∈ contrib (args.map (fun p => (p.2, p.1.shape))) q1.1 :=
      mem_contrib (List.mem_map.mpr ⟨p2, hp2, rfl⟩) (by rw [heq]; simpa using hq2)
    have hrec : shapeAlg args q1.1 = none :=
      reconcile_none_of_two hm1 hm2 hne h11 h21
    have hlab : q1.1 ∈ atopLabels args := by
      unfold atopLabels
      rw [List.mem_dedup, List.mem_flatMap]
      exact ⟨p1, hp1, (List.of_mem_zip (by simpa using hq1)).1⟩
    have hres : resolveAll (shapeAlg args) (atopLabels args) = none :=
      resolveAll_eq_none_of_mem hlab hrec
    simp only [atop]
    cases htop : top func out out_ind (argSpecs args) with
    | none => rfl
    | some dsk =>
      rw [hres]
  | inr h =>
    obtain ⟨i, hi, habs⟩ := h
    have hrec : topDim (argSpecs args) i = none := by
      unfold topDim
      rw [contrib_eq_nil]
      · rfl
      · intro pr hpr
        unfold argSpecs at hpr
        rw [List.map_map, List.mem_map] at hpr
        obtain ⟨p, hp, rfl⟩ := hpr
        exact habs p hp
    have htop : top func out out_ind (argSpecs args) = none := by
      simp only [top]
      cases h1 : resolveAll (topDim (argSpecs args)) (topLabels (argSpecs args)) with
      | none => rfl
      | some ds =>
        rw [resolveAll_eq_none_of_mem hi hrec]
    simp only [atop]
    rw [htop]

/-- Witness for C3: a 10-versus-12 shape mismatch on a shared label,
and an output label `1` present in no input, each make `atop`
return `none`. -/
theorem atop_fail_fast_w :
    atop (Func.prim 7) "z" [0]
      [((Dask.Array.mk [] "x" [10] [5]), [0]), ((Dask.Array.mk [] "w" [12] [5]), [0])] = none
    ∧ atop (Func.prim 7) "z" [1] [((Dask.Array.mk [] "x" [10] [5]), [0])] = none :=
  ⟨atop_fail_fast _ _ _ _ (Or.inl (by decide)),
   atop_fail_fast _ _ _ _ (Or.inr (by decide))⟩

theorem graphKeys_append (a b : Graph) :
    graphKeys (a ++ b) = graphKeys a ++ graphKeys b := by
  unfold graphKeys
  exact List.map_append _ _ _

theorem graphKeys_top {ι : Type} [DecidableEq ι] {f : Func} {out : String}
    {out_ind : List ι} {aps : List (ArgSpec ι)} {G : Graph}
    (h : top f out out_ind aps = some G) :
    ∃ od, resolveAll (topDim aps) out_ind = some od
      ∧ graphKeys G = (prodRanges od).map (fun c => (out, c)) := by
  obtain ⟨ds, od, _, h2, rfl⟩ := top_eq_some h
  refine ⟨od, h2, ?_⟩
  unfold graphKeys
  rw [List.map_map]
  rfl

/-- C8 (amended): key sets of `atop` graphs are determined by the output
identifier, the label tuples and the inputs alone — two calls agreeing
on those (even with different functions, e.g. different baked-in scalar
parameters) produce identical key sets; and when the two calls use
distinct output identifiers (as the fresh-name counter gives separate
lowering invocations), their newly generated entries — the keys carrying
the output identifier — are disjoint, while the merged graphs still
share the input arrays' keys. -/
theorem atop_key_determinism {ι : Type} [DecidableEq ι]
    (f1 f2 : Func) (out1 out2 : String) (out_ind : List ι)
    (args : List (Dask.Array × List ι)) (A1 A2 : Dask.Array)
    (h1 : atop f1 out1 out_ind args = some A1)
    (h2 : atop f2 out2 out_ind args = some A2) :
    (out1 = out2 → graphKeys A1.dask = graphKeys A2.dask)
    ∧ (out1 ≠ out2 → ∀ k1 ∈ graphKeys A1.dask, k1.1 = out1 →
        ∀ k2 ∈ graphKeys A2.dask, k2.1 = out2 → k1 ≠ k2) := by
  constructor
  · intro hout
    subst hout
    obtain ⟨dsk1, htop1, _, _, _, hd1⟩ := atop_eq_some h1
    obtain ⟨dsk2, htop2, _, _, _, hd2⟩ := atop_eq_some h2
    obtain ⟨od1, hres1, hk1⟩ := graphKeys_top htop1
    obtain ⟨od2, hres2, hk2⟩ := graphKeys_top htop2
    have hod : od1 = od2 := by
      rw [hres1] at hres2
      exact Option.some.inj hres2
    rw [hd1, hd2, graphKeys_append, graphKeys_append, hk1, hk2, hod]
  · intro hne k1 _ hk1 k2 _ hk2 heq
    apply hne
    rw [← hk1, ← hk2, heq]

/-- Witness for C8 (amended) on a one-block input with output
identifiers "z1" and "z2" and functions `prim 1` and `prim 2`. -/
theorem atop_key_determinism_w :
    ((("z1" : String) = "z2" →
        graphKeys (Dask.Array.mk
          [(("z1",[0]), ⟨Func.prim 1, [[("x",[0])]]⟩),
           (("x",[0]), ⟨Func.prim 0, []⟩)] "z1" [5] [5]).dask =
        graphKeys (Dask.Array.mk
          [(("z2",[0]), ⟨Func.prim 2, [[("x",[0])]]⟩),
           (("x",[0]), ⟨Func.prim 0, []⟩)] "z2" [5] [5]).dask)
    ∧ (("z1" : String) ≠ "z2" →
        ∀ k1 ∈ graphKeys (Dask.Array.mk
            [(("z1",[0]), ⟨Func.prim 1, [[("x",[0])]]⟩),
             (("x",[0]), ⟨Func.prim 0, []⟩)] "z1" [5] [5]).dask, k1.1 = "z1" →
        ∀ k2 ∈ graphKeys (Dask.Array.mk
            [(("z2",[0]), ⟨Func.prim 2, [[("x",[0])]]⟩),
             (("x",[0]), ⟨Func.prim 0, []⟩)] "z2" [5] [5]).dask, k2.1 = "z2" →
          k1 ≠ k2)) :=
  atop_key_determinism (Func.prim 1) (Func.prim 2) "z1" "z2" [0]
    [((Dask.Array.mk [(("x",[0]), ⟨Func.prim 0, []⟩)] "x" [5] [5]), [0])]
    _ _ (by decide) (by decide)

/-- C8 counterexample: the same `atop` call differing only in the scalar
baked into the function (`prim 1` vs `prim 2`) yields identical — hence
overlapping, not disjoint — key sets: the key ("z",[0]) lies in both
graphs. -/
theorem atop_keys_cex :
    (atop (Func.prim 1) "z" [0]
        [((Dask.Array.mk [(("x",[0]), ⟨Func.prim 0, []⟩)] "x" [5] [5]), [0])]).map
      (fun A => graphKeys A.dask) = some [("z",[0]), ("x",[0])]
    ∧ (atop (Func.prim 2) "z" [0]
        [((Dask.Array.mk [(("x",[0]), ⟨Func.prim 0, []⟩)] "x" [5] [5]), [0])]).map
      (fun A => graphKeys A.dask) = some [("z",[0]), ("x",[0])]
    ∧ ("z",[0]) ∈ ([("z",[0]), ("x",[0])] : List Key) :=
  ⟨by decide, by decide, by decide⟩

theorem lookupD_zip_indexOf {ι : Type} [DecidableEq ι] (L : List ι) (c : List ℕ)
    (hnd : L.Nodup) (i : ι) (hi : i ∈ L) :
    lookupD (L.zip c) i = c.getD (L.indexOf i) 0 := by
  induction L generalizing c with
  | nil => cases hi
  | cons a L' ih =>
    cases c with
    | nil => simp [lookupD, List.getD]
    | cons v c' =>
      by_cases hia : a = i
      · subst hia
        rw [List.zip_cons_cons, lookupD, if_pos rfl, List.indexOf_cons_self,
          List.getD_cons_zero]
      · have hi' : i ∈ L' := List.mem_of_ne_of_mem (fun hh => hia hh.symm) hi
        rw [List.zip_cons_cons, lookupD, if_neg hia,
          ih c' hnd.of_cons hi', List.indexOf_cons_ne _ hia, Nat.succ_eq_add_one,
          List.getD_cons_succ]

theorem map_lookupD_zip_self {ι : Type} [DecidableEq ι] (L : List ι) (c : List ℕ)
    (hnd : L.Nodup) (hlen : c.length = L.length) :
    L.map (fun i => lookupD (L.zip c) i) = c := by
  apply List.ext_getElem (by simp [hlen])
  intro n h1 h2
  rw [List.getElem_map]
  rw [lookupD_zip_indexOf L c hnd _ (List.getElem_mem _)]
  have hidx : L.indexOf L[n] = n := by
    have hlt : L.indexOf L[n] < L.length := List.indexOf_lt_length.mpr (List.getElem_mem _)
    have hget : L[L.indexOf L[n]] = L[n] := List.getElem_indexOf hlt
    exact (hnd.getElem_inj_iff).mp hget
  rw [hidx, List.getD_eq_getElem _ _ h2]

theorem top_no_dummy_tasks {ι : Type} [DecidableEq ι] {func : Func} {out : String}
    {out_ind : List ι} (hnd : out_ind.Nodup) {aps : List (ArgSpec ι)}
    (hsub : ∀ Ap ∈ aps, Ap.ind = out_ind) {G : Graph}
    (h : top func out out_ind aps = some G) :
    ∀ e ∈ G, e.2.func = func ∧ e.2.args = aps.map (fun Ap => [(Ap.name, e.1.2)]) := by
  obtain ⟨ds, od, h1, h2, rfl⟩ := top_eq_some h
  intro e he
  rw [List.mem_map] at he
  obtain ⟨coords, hc, rfl⟩ := he
  refine ⟨rfl, ?_⟩
  have hdum : (topLabels aps).filter (fun i => i ∉ out_ind) = [] := by
    apply List.filter_eq_nil_iff.mpr
    intro x hx
    unfold topLabels at hx
    rw [List.mem_dedup, List.mem_flatMap] at hx
    obtain ⟨Ap, hAp, hxi⟩ := hx
    rw [hsub Ap hAp] at hxi
    simp [hxi]
  have hclen : coords.length = out_ind.length := by
    rw [length_of_mem_prodRanges hc, resolveAll_length h2]
  dsimp only
  apply List.map_congr_left
  intro Ap hAp
  simp only [argKeys, hdum, List.filter_nil, List.map_nil, prodRanges,
    List.map_cons, List.zip_nil_left, List.append_nil]
  rw [hsub Ap hAp, map_lookupD_zip_self out_ind coords hnd hclen]

/-- C7: the elementwise lowering gives every input the same canonical
label tuple (reversed dimension ordinals) equal to the output label
tuple, so the constructor contracts nothing and every output task
applies the function to exactly the one co-located block of each
input. -/
theorem elemwise_spec (f : Func) (nexpr : ℕ) (out : String)
    (data : List Dask.Array) (A : Dask.Array)
    (hnd : ∀ d ∈ data, d.ndim = nexpr)
    (h : elemwise_array f nexpr out data = some A) :
    (∀ d ∈ data, (List.range d.ndim).reverse = (List.range nexpr).reverse)
    ∧ ∃ G, top f out ((List.range nexpr).reverse)
          (argSpecs (data.map (fun d => (d, (List.range d.ndim).reverse)))) = some G
        ∧ ∀ e ∈ G, e.2.func = f ∧ e.2.args = data.map (fun d => [(d.name, e.1.2)]) := by
  have hlab : ∀ d ∈ data, (List.range d.ndim).reverse = (List.range nexpr).reverse := by
    intro d hd
    rw [hnd d hd]
  refine ⟨hlab, ?_⟩
  unfold elemwise_array at h
  obtain ⟨dsk, htop, _, _, _, _⟩ := atop_eq_some h
  refine ⟨dsk, htop, ?_⟩
  intro e he
  have hndp : ((List.range nexpr).reverse).Nodup :=
    List.nodup_reverse.mpr (List.nodup_range nexpr)
  have hsub : ∀ Ap ∈ argSpecs (data.map (fun d => (d, (List.range d.ndim).reverse))),
      Ap.ind = (List.range nexpr).reverse := by
    intro Ap hAp
    unfold argSpecs at hAp
    rw [List.map_map, List.mem_map] at hAp
    obtain ⟨d, hd, rfl⟩ := hAp
    exact hlab d hd
  obtain ⟨hf, ha⟩ := top_no_dummy_tasks hndp hsub htop e he
  refine ⟨hf, ?_⟩
  rw [ha]
  unfold argSpecs
  rw [List.map_map, List.map_map]
  rfl

/-- Witness for C7 on two one-block 1-d arrays: each output task takes
the one co-located block from each input. -/
theorem elemwise_spec_w :
    (∀ d ∈ [Dask.Array.mk [(("x",[0]), ⟨Func.prim 0, []⟩)] "x" [5] [5],
            Dask.Array.mk [(("y",[0]), ⟨Func.prim 9, []⟩)] "y" [5] [5]],
      (List.range d.ndim).reverse = (List.range 1).reverse)
    ∧ ∃ G, top (Func.prim 3) "z" ((List.range 1).reverse)
          (argSpecs ([Dask.Array.mk [(("x",[0]), ⟨Func.prim 0, []⟩)] "x" [5] [5],
                      Dask.Array.mk [(("y",[0]), ⟨Func.prim 9, []⟩)] "y" [5] [5]].map
            (fun d => (d, (List.range d.ndim).reverse)))) = some G
        ∧ ∀ e ∈ G, e.2.func = Func.prim 3
            ∧ e.2.args = [Dask.Array.mk [(("x",[0]), ⟨Func.prim 0, []⟩)] "x" [5] [5],
                          Dask.Array.mk [(("y",[0]), ⟨Func.prim 9, []⟩)] "y" [5] [5]].map
                (fun d => [(d.name, e.1.2)]) :=
  elemwise_spec (Func.prim 3) 1 "z"
    [Dask.Array.mk [(("x",[0]), ⟨Func.prim 0, []⟩)] "x" [5] [5],
     Dask.Array.mk [(("y",[0]), ⟨Func.prim 9, []⟩)] "y" [5] [5]]
    (Dask.Array.mk
      [(("z",[0]), ⟨Func.prim 3, [[("x",[0])], [("y",[0])]]⟩),
       (("x",[0]), ⟨Func.prim 0, []⟩),
       (("y",[0]), ⟨Func.prim 9, []⟩)] "z" [5] [5])
    (by decide) (by decide)

theorem lookupD_append {ι : Type} [DecidableEq ι] (l1 l2 : List (ι × ℕ)) (i : ι) :
    lookupD (l1 ++ l2) i =
      if i ∈ l1.map Prod.fst then lookupD l1 i else lookupD l2 i := by
  induction l1 with
  | nil => simp [lookupD]
  | cons p l1 ih =>
    by_cases hp : p.1 = i
    · rw [List.cons_append, lookupD, if_pos hp, lookupD, if_pos hp]
      rw [if_pos]
      rw [List.map_cons, List.mem_cons]
      exact Or.inl hp.symm
    · rw [List.cons_append, lookupD, if_neg hp, ih, lookupD, if_neg hp]
      have hiff : (i ∈ (p :: l1).map Prod.fst) ↔ (i ∈ l1.map Prod.fst) := by
        rw [List.map_cons, List.mem_cons]
        constructor
        · intro hh
          rcases hh with hh | hh
          · exact absurd hh.symm hp
          · exact hh
        · exact Or.inr
      exact (if_congr hiff rfl rfl).symm

theorem range_indexOf {n i : ℕ} (hi : i < n) : (List.range n).indexOf i = i := by
  have hmem : i ∈ List.range n := List.mem_range.mpr hi
  have hlt : (List.range n).indexOf i < (List.range n).length :=
    List.indexOf_lt_length.mpr hmem
  have hget := List.getElem_indexOf hlt
  rwa [List.getElem_range] at hget

theorem zip_filter_eq_single {ι : Type} [DecidableEq ι] (L : List ι)
    (vals : List ℕ) (hnd : L.Nodup) (hlen : vals.length = L.length)
    (i : ι) (hi : i ∈ L) :
    (L.zip vals).filter (fun q => q.1 = i) =
      [(i, vals.getD (L.indexOf i) 0)] := by
  induction L generalizing vals with
  | nil => cases hi
  | cons a L' ih =>
    cases vals with
    | nil => simp at hlen
    | cons v vals' =>
      rw [List.zip_cons_cons]
      by_cases hia : a = i
      · subst hia
        rw [List.filter_cons_of_pos (by simp)]
        rw [List.indexOf_cons_self, List.getD_cons_zero]
        have hrest : (L'.zip vals').filter (fun q => q.1 = a) = [] := by
          apply List.filter_eq_nil_iff.mpr
          intro q hq
          simp only [decide_eq_true_eq]
          intro hqa
          exact (List.nodup_cons.mp hnd).1 (hqa ▸ (List.of_mem_zip hq).1)
        rw [hrest]
      · rw [List.filter_cons_of_neg (by simp [hia])]
        rw [ih vals' hnd.of_cons (by simpa using hlen)
          (List.mem_of_ne_of_mem (fun hh => hia hh.symm) hi)]
        rw [List.indexOf_cons_ne _ hia, Nat.succ_eq_add_one, List.getD_cons_succ]

theorem contrib_single {ι : Type} [DecidableEq ι] (L : List ι) (vals : List ℕ)
    (hnd : L.Nodup) (hlen : vals.length = L.length) (i : ι) (hi : i ∈ L) :
    contrib [(L, vals)] i = [vals.getD (L.indexOf i) 0] := by
  unfold contrib
  simp only [List.flatMap_cons, List.flatMap_nil, List.append_nil]
  rw [zip_filter_eq_single L vals hnd hlen i hi]
  rfl

theorem resolveAll_single_identity {ι : Type} [DecidableEq ι] (L : List ι)
    (vals : List ℕ) (hnd : L.Nodup) (hlen : vals.length = L.length) :
    resolveAll (fun i => reconcile (contrib [(L, vals)] i)) L = some vals := by
  have hfa : ∀ i ∈ L, (fun i => reconcile (contrib [(L, vals)] i)) i =
      some (vals.getD (L.indexOf i) 0) := by
    intro i hi
    simp only
    rw [contrib_single L vals hnd hlen i hi, reconcile_single]
  rw [resolveAll_of_forall hfa]
  congr 1
  apply List.ext_getElem (by simp [hlen])
  intro n h1 h2
  rw [List.getElem_map]
  have hidx : L.indexOf L[n] = n := by
    have hlt : L.indexOf L[n] < L.length :=
      List.indexOf_lt_length.mpr (List.getElem_mem _)
    exact (hnd.getElem_inj_iff).mp (List.getElem_indexOf hlt)
  rw [hidx, List.getD_eq_getElem _ _ h2]

theorem prodRanges_pairwise_lex (dims : List ℕ) :
    (prodRanges dims).Pairwise (List.Lex (· < ·)) := by
  induction dims with
  | nil => simp [prodRanges]
  | cons n rest ih =>
    rw [prodRanges]
    have hform : (List.range n).flatMap (fun i => (prodRanges rest).map (i :: ·)) =
        ((List.range n).map (fun i => (prodRanges rest).map (i :: ·))).flatten := by
      rw [List.flatMap_def]
    rw [hform, List.pairwise_flatten]
    refine ⟨?_, ?_⟩
    · intro l hl
      rw [List.mem_map] at hl
      obtain ⟨i, _, rfl⟩ := hl
      rw [List.pairwise_map]
      exact ih.imp (fun hab => List.Lex.cons hab)
    · rw [List.pairwise_map]
      apply (List.pairwise_lt_range n).imp
      intro a b hab x hx y hy
      rw [List.mem_map] at hx hy
      obtain ⟨c, _, rfl⟩ := hx
      obtain ⟨c', _, rfl⟩ := hy
      exact List.Lex.rel hab

theorem top_single_gather (func : Func) (n1 out : String) (n : ℕ)
    (axis : List ℕ) (nb : List ℕ) (hnb : nb.length = n) {G : Graph}
    (h : top func out ((List.range n).filter (fun i => i ∉ axis))
        [ArgSpec.mk n1 nb (List.range n)] = some G) :
    ∀ e ∈ G, e.2.func = func
      ∧ e.2.args = [(prodRanges (((List.range n).filter (fun i => i ∈ axis)).map
            (fun i => nb.getD i 0))).map
          (fun combo => (n1, gatherCoords n axis e.1.2 combo))] := by
  obtain ⟨ds, od, h1, h2, rfl⟩ := top_eq_some h
  intro e he
  rw [List.mem_map] at he
  obtain ⟨coords, hc, rfl⟩ := he
  refine ⟨rfl, ?_⟩
  have hndr : (List.range n).Nodup := List.nodup_range n
  have hout_ind : ((List.range n).filter (fun i => i ∉ axis)).Nodup :=
    List.Sublist.nodup (List.filter_sublist _) hndr
  -- the inputs' labels, deduplicated, are just `range n`
  have hlabels : topLabels [ArgSpec.mk n1 nb (List.range n)] = List.range n := by
    unfold topLabels
    simp only [List.flatMap_cons, List.flatMap_nil, List.append_nil]
    exact hndr.dedup
  -- the contracted labels are the reduced axes, ascending
  have hdum : (topLabels [ArgSpec.mk n1 nb (List.range n)]).filter
      (fun i => i ∉ (List.range n).filter (fun i => i ∉ axis)) =
      (List.range n).filter (fun i => i ∈ axis) := by
    rw [hlabels]
    apply List.filter_congr
    intro x hx
    simp [List.mem_filter, hx]
  have hmine : ((List.range n).filter (fun i => i ∈ axis)).filter
      (fun d => d ∈ (ArgSpec.mk n1 nb (List.range n)).ind) =
      (List.range n).filter (fun i => i ∈ axis) := by
    apply List.filter_eq_self.mpr
    intro a ha
    have : a ∈ List.range n := (List.mem_filter.mp ha).1
    simpa using this
  have hminend : ((List.range n).filter (fun i => i ∈ axis)).Nodup :=
    List.Sublist.nodup (List.filter_sublist _) hndr
  -- the reconciled dimension of each label is its numblocks entry
  have hdim : ∀ i ∈ List.range n,
      (topDim [ArgSpec.mk n1 nb (List.range n)] i).getD 0 = nb.getD i 0 := by
    intro i hi
    unfold topDim
    simp only [List.map_cons, List.map_nil]
    rw [contrib_single (List.range n) nb hndr (by simpa using hnb) i hi,
      reconcile_single]
    rw [range_indexOf (List.mem_range.mp hi)]
    rfl
  -- coordinates have the right length
  have hclen : coords.length =
      ((List.range n).filter (fun i => i ∉ axis)).length := by
    rw [length_of_mem_prodRanges hc, resolveAll_length h2]
  dsimp only
  simp only [argKeys, hdum, hmine, List.map_cons, List.map_nil]
  congr 1
  -- the combo dimensions are the reduced numblocks, ascending
  have hdims : ((List.range n).filter (fun i => i ∈ axis)).map
      (fun i => (topDim [ArgSpec.mk n1 nb (List.range n)] i).getD 0) =
      ((List.range n).filter (fun i => i ∈ axis)).map (fun i => nb.getD i 0) := by
    apply List.map_congr_left
    intro i hi
    exact hdim i (List.mem_filter.mp hi).1
  rw [hdims]
  apply List.map_congr_left
  intro combo _
  congr 1
  unfold gatherCoords
  apply List.map_congr_left
  intro p hp
  have hpn : p < n := List.mem_range.mp hp
  rw [lookupD_append]
  have hfst : ((((List.range n).filter (fun i => i ∉ axis)).zip coords).map
      Prod.fst) = (List.range n).filter (fun i => i ∉ axis) :=
    List.map_fst_zip _ _ (le_of_eq hclen.symm)
  rw [hfst]
  by_cases hpa : p ∈ axis
  · rw [if_neg (by simp [List.mem_filter, hpa]), if_pos hpa]
    rw [lookupD_zip_indexOf _ combo hminend p
      (List.mem_filter.mpr ⟨hp, by simpa using hpa⟩)]
  · rw [if_pos (List.mem_filter.mpr ⟨hp, by simpa using hpa⟩), if_neg hpa]
    rw [lookupD_zip_indexOf _ coords hout_ind p
      (List.mem_filter.mpr ⟨hp, by simpa using hpa⟩)]

/-- C5: the reduction lowering is exactly two `atop` calls: a chunk
phase whose output labels equal the input labels (so no axis is removed
and each partial block consumes the one co-located input block), then
an aggregate phase whose output labels drop the reduced axes, whose
combining function is `compose(agg, concatenate2(axes=axis))` — first
concatenate the gathered chunk blocks along the reduced axes, then
aggregate — and whose tasks gather all chunk-phase blocks along the
reduced axes in ascending (lexicographic, row-major) block order. -/
theorem reduction_two_phase (chunkF aggF : Func) (axis : List ℕ)
    (n1 n2 : String) (data A : Dask.Array)
    (hlen : data.shape.length = data.blockshape.length)
    (h : compute_up_reduction chunkF aggF axis n1 n2 data = some A) :
    ∃ tmp,
      atop chunkF n1 (List.range data.ndim) [(data, List.range data.ndim)] = some tmp
      ∧ tmp.shape = data.shape
      ∧ tmp.blockshape = data.blockshape
      ∧ (∃ Gc, top chunkF n1 (List.range data.ndim)
            (argSpecs [(data, List.range data.ndim)]) = some Gc
          ∧ ∀ e ∈ Gc, e.2.func = chunkF ∧ e.2.args = [[(data.name, e.1.2)]])
      ∧ atop (Func.compose aggF (Func.concatenate2 axis)) n2
          ((List.range data.ndim).filter (fun i => i ∉ axis))
          [(tmp, List.range data.ndim)] = some A
      ∧ (∃ Ga, top (Func.compose aggF (Func.concatenate2 axis)) n2
            ((List.range data.ndim).filter (fun i => i ∉ axis))
            (argSpecs [(tmp, List.range data.ndim)]) = some Ga
          ∧ ∀ e ∈ Ga,
              e.2.func = Func.compose aggF (Func.concatenate2 axis)
              ∧ e.2.args = [(prodRanges (((List.range data.ndim).filter
                    (fun i => i ∈ axis)).map (fun i => tmp.numblocks.getD i 0))).map
                  (fun combo => (n1, gatherCoords data.ndim axis e.1.2 combo))])
      ∧ (prodRanges (((List.range data.ndim).filter (fun i => i ∈ axis)).map
            (fun i => tmp.numblocks.getD i 0))).Pairwise (List.Lex (· < ·)) := by
  simp only [compute_up_reduction] at h
  cases hchunk : atop chunkF n1 (List.range data.ndim)
      [(data, List.range data.ndim)] with
  | none => rw [hchunk] at h; exact absurd h (by simp)
  | some tmp =>
  rw [hchunk] at h
  refine ⟨tmp, rfl, ?_, ?_, ?_, h, ?_, prodRanges_pairwise_lex _⟩
  case _ =>
    -- tmp.shape = data.shape
    obtain ⟨_, _, hs, _, _, _⟩ := atop_eq_some hchunk
    have hid : resolveAll (shapeAlg [(data, List.range data.ndim)])
        (List.range data.ndim) = some data.shape :=
      resolveAll_single_identity (List.range data.ndim) data.shape
        (List.nodup_range _) (by simp [Dask.Array.ndim])
    rw [hs] at hid
    exact Option.some.inj hid
  case _ =>
    -- tmp.blockshape = data.blockshape
    obtain ⟨_, _, _, hb, _, _⟩ := atop_eq_some hchunk
    have hid : resolveAll (blockAlg [(data, List.range data.ndim)])
        (List.range data.ndim) = some data.blockshape :=
      resolveAll_single_identity (List.range data.ndim) data.blockshape
        (List.nodup_range _) (by simp [Dask.Array.ndim, ← hlen])
    rw [hb] at hid
    exact Option.some.inj hid
  case _ =>
    -- chunk-phase tasks are one-to-one
    obtain ⟨Gc, htopc, _, _, _, _⟩ := atop_eq_some hchunk
    refine ⟨Gc, htopc, ?_⟩
    intro e he
    have := top_no_dummy_tasks (List.nodup_range data.ndim)
      (by intro Ap hAp; simp only [argSpecs, List.map_cons, List.map_nil,
        List.mem_singleton] at hAp; rw [hAp]) htopc e he
    simpa [argSpecs] using this
  case _ =>
    -- aggregate-phase tasks gather along the reduced axes
    obtain ⟨Ga, htopa, _, _, _, _⟩ := atop_eq_some h
    refine ⟨Ga, htopa, ?_⟩
    -- tmp's fields
    obtain ⟨_, _, hs, hb, hname, _⟩ := atop_eq_some hchunk
    have hts : tmp.shape = data.shape := by
      have hid : resolveAll (shapeAlg [(data, List.range data.ndim)])
          (List.range data.ndim) = some data.shape :=
        resolveAll_single_identity (List.range data.ndim) data.shape
          (List.nodup_range _) (by simp [Dask.Array.ndim])
      rw [hs] at hid
      exact Option.some.inj hid
    have htb : tmp.blockshape = data.blockshape := by
      have hid : resolveAll (blockAlg [(data, List.range data.ndim)])
          (List.range data.ndim) = some data.blockshape :=
        resolveAll_single_identity (List.range data.ndim) data.blockshape
          (List.nodup_range _) (by simp [Dask.Array.ndim, ← hlen])
      rw [hb] at hid
      exact Option.some.inj hid
    have hnblen : tmp.numblocks.length = data.ndim := by
      have : tmp.shape.length = tmp.blockshape.length := by
        rw [hts, htb]
        exact hlen
      rw [numblocks_length tmp this, Dask.Array.ndim, hts]
      rfl
    have hspec : argSpecs [(tmp, List.range data.ndim)] =
        [ArgSpec.mk n1 tmp.numblocks (List.range data.ndim)] := by
      simp [argSpecs, hname]
    rw [hspec] at htopa
    exact top_single_gather _ n1 n2 data.ndim axis tmp.numblocks hnblen htopa

/-- Witness for C5: summing a (4,4)/(2,2)-blocked array over axis 0:
the chunk phase keeps the 2×2 grid, the aggregate phase gathers the two
chunk blocks of each column in ascending row order and applies
`compose(agg, concatenate2(axes=[0]))`. -/
theorem reduction_two_phase_w :
    ∃ tmp,
      atop (Func.prim 1) "t1"
        (List.range (Dask.Array.mk [(("m",[0,0]), ⟨Func.prim 0, []⟩)] "m" [4,4] [2,2]).ndim)
        [((Dask.Array.mk [(("m",[0,0]), ⟨Func.prim 0, []⟩)] "m" [4,4] [2,2]),
          List.range (Dask.Array.mk [(("m",[0,0]), ⟨Func.prim 0, []⟩)] "m" [4,4] [2,2]).ndim)] = some tmp
      ∧ tmp.shape = (Dask.Array.mk [(("m",[0,0]), ⟨Func.prim 0, []⟩)] "m" [4,4] [2,2]).shape
      ∧ tmp.blockshape = (Dask.Array.mk [(("m",[0,0]), ⟨Func.prim 0, []⟩)] "m" [4,4] [2,2]).blockshape
      ∧ (∃ Gc, top (Func.prim 1) "t1"
            (List.range (Dask.Array.mk [(("m",[0,0]), ⟨Func.prim 0, []⟩)] "m" [4,4] [2,2]).ndim)
            (argSpecs [((Dask.Array.mk [(("m",[0,0]), ⟨Func.prim 0, []⟩)] "m" [4,4] [2,2]),
              List.range (Dask.Array.mk [(("m",[0,0]), ⟨Func.prim 0, []⟩)] "m" [4,4] [2,2]).ndim)]) = some Gc
          ∧ ∀ e ∈ Gc, e.2.func = Func.prim 1
              ∧ e.2.args = [[((Dask.Array.mk [(("m",[0,0]), ⟨Func.prim 0, []⟩)] "m" [4,4] [2,2]).name, e.1.2)]])
      ∧ atop (Func.compose (Func.prim 2) (Func.concatenate2 [0])) "t2"
          ((List.range (Dask.Array.mk [(("m",[0,0]), ⟨Func.prim 0, []⟩)] "m" [4,4] [2,2]).ndim).filter
            (fun i => i ∉ ([0] : List ℕ)))
          [(tmp, List.range (Dask.Array.mk [(("m",[0,0]), ⟨Func.prim 0, []⟩)] "m" [4,4] [2,2]).ndim)] =
          some (Dask.Array.mk
            [(("t2",[0]), ⟨Func.compose (Func.prim 2) (Func.concatenate2 [0]),
                [[("t1",[0,0]), ("t1",[1,0])]]⟩),
             (("t2",[1]), ⟨Func.compose (Func.prim 2) (Func.concatenate2 [0]),
                [[("t1",[0,1]), ("t1",[1,1])]]⟩),
             (("t1",[0,0]), ⟨Func.prim 1, [[("m",[0,0])]]⟩),
             (("t1",[0,1]), ⟨Func.prim 1, [[("m",[0,1])]]⟩),
             (("t1",[1,0]), ⟨Func.prim 1, [[("m",[1,0])]]⟩),
             (("t1",[1,1]), ⟨Func.prim 1, [[("m",[1,1])]]⟩),
             (("m",[0,0]), ⟨Func.prim 0, []⟩)] "t2" [4] [2])
      ∧ (∃ Ga, top (Func.compose (Func.prim 2) (Func.concatenate2 [0])) "t2"
            ((List.range (Dask.Array.mk [(("m",[0,0]), ⟨Func.prim 0, []⟩)] "m" [4,4] [2,2]).ndim).filter
              (fun i => i ∉ ([0] : List ℕ)))
            (argSpecs [(tmp, List.range (Dask.Array.mk [(("m",[0,0]), ⟨Func.prim 0, []⟩)] "m" [4,4] [2,2]).ndim)]) = some Ga
          ∧ ∀ e ∈ Ga,
              e.2.func = Func.compose (Func.prim 2) (Func.concatenate2 [0])
              ∧ e.2.args = [(prodRanges (((List.range (Dask.Array.mk
                    [(("m",[0,0]), ⟨Func.prim 0, []⟩)] "m" [4,4] [2,2]).ndim).filter
                    (fun i => i ∈ ([0] : List ℕ))).map (fun i => tmp.numblocks.getD i 0))).map
                  (fun combo => ("t1", gatherCoords (Dask.Array.mk
                    [(("m",[0,0]), ⟨Func.prim 0, []⟩)] "m" [4,4] [2,2]).ndim [0] e.1.2 combo))])
      ∧ (prodRanges (((List.range (Dask.Array.mk
            [(("m",[0,0]), ⟨Func.prim 0, []⟩)] "m" [4,4] [2,2]).ndim).filter
            (fun i => i ∈ ([0] : List ℕ))).map
            (fun i => tmp.numblocks.getD i 0))).Pairwise (List.Lex (· < ·)) :=
  reduction_two_phase (Func.prim 1) (Func.prim 2) [0] "t1" "t2"
    (Dask.Array.mk [(("m",[0,0]), ⟨Func.prim 0, []⟩)] "m" [4,4] [2,2])
    (Dask.Array.mk
      [(("t2",[0]), ⟨Func.compose (Func.prim 2) (Func.concatenate2 [0]),
          [[("t1",[0,0]), ("t1",[1,0])]]⟩),
       (("t2",[1]), ⟨Func.compose (Func.prim 2) (Func.concatenate2 [0]),
          [[("t1",[0,1]), ("t1",[1,1])]]⟩),
       (("t1",[0,0]), ⟨Func.prim 1, [[("m",[0,0])]]⟩),
       (("t1",[0,1]), ⟨Func.prim 1, [[("m",[0,1])]]⟩),
       (("t1",[1,0]), ⟨Func.prim 1, [[("m",[1,0])]]⟩),
       (("t1",[1,1]), ⟨Func.prim 1, [[("m",[1,1])]]⟩),
       (("m",[0,0]), ⟨Func.prim 0, []⟩)] "t2" [4] [2])
    rfl (by decide)

theorem remaining_sublist {α : Type} (X : List α) (done : List ℕ) :
    (remaining X done).Sublist X := by
  unfold remaining
  have h1 : ((X.enum.filter (fun p => p.1 ∉ done)).map Prod.snd).Sublist
      (X.enum.map Prod.snd) := (List.filter_sublist _).map Prod.snd
  rwa [List.enum_map_snd] at h1

theorem nodup_remaining {α : Type} {X : List α} (hnd : X.Nodup)
    (done : List ℕ) : (remaining X done).Nodup :=
  (remaining_sublist X done).nodup hnd

theorem mem_remaining_sub {α : Type} {X : List α} {done : List ℕ} {c : α}
    (h : c ∈ remaining X done) : c ∈ X :=
  (remaining_sublist X done).mem h

theorem mem_remaining_iff {α : Type} [DecidableEq α] {X : List α}
    (hnd : X.Nodup) {r : ℕ} (hr : r < X.length) (done : List ℕ) :
    X[r] ∈ remaining X done ↔ r ∉ done := by
  unfold remaining
  rw [List.mem_map]
  constructor
  · rintro ⟨q, hq, hq2⟩
    rw [List.mem_filter] at hq
    obtain ⟨hqe, hqp⟩ := hq
    obtain ⟨i, x⟩ := q
    obtain ⟨hi, hx⟩ := List.mem_enum hqe
    have hxr : x = X[r] := by simpa using hq2
    have hir : i = r := (hnd.getElem_inj_iff).mp (hx ▸ hxr)
    subst hir
    simpa using hqp
  · intro hrd
    refine ⟨(r, X[r]), List.mem_filter.mpr ⟨?_, by simpa using hrd⟩, rfl⟩
    rw [List.mk_mem_enum_iff_getElem?]
    exact List.getElem?_eq_getElem hr

theorem remaining_erase {α : Type} [DecidableEq α] {X : List α}
    (hnd : X.Nodup) {r : ℕ} (hr : r < X.length) (done : List ℕ) :
    (remaining X done).erase X[r] = remaining X (done ++ [r]) := by
  rw [(nodup_remaining hnd done).erase_eq_filter]
  unfold remaining
  rw [List.filter_map, List.filter_filter]
  congr 1
  apply List.filter_congr
  intro q hq
  obtain ⟨i, x⟩ := q
  obtain ⟨hi, hx⟩ := List.mem_enum hq
  have h1 : (X[i] != X[r]) = decide (i ≠ r) := by
    by_cases hir : i = r
    · subst hir
      simp
    · have hne : X[i] ≠ X[r] := fun hxy => hir ((hnd.getElem_inj_iff).mp hxy)
      simp [hne, hir]
  rw [hx]
  simp only [Function.comp_apply, h1]
  by_cases hd : i ∈ done <;> by_cases hir : i = r <;>
    simp [hd, hir, List.mem_append]

theorem remaining_nil {α : Type} (X : List α) : remaining X [] = X := by
  unfold remaining
  rw [List.filter_eq_self.mpr (by simp)]
  exact List.enum_map_snd X

theorem tdIndices_eq_foldl (laxes raxes : List ℕ) (lhs rhs : Dask.Array) :
    tdIndices laxes raxes lhs rhs =
      (laxes.zip raxes).foldl (tdStep (alphabet.take lhs.ndim))
        (alphabet.take lhs.ndim ++ ALPHABET.take rhs.ndim,
         ALPHABET.take rhs.ndim) := rfl

theorem foldl_tdStep_snd (L : List Char) :
    ∀ (ps : List (ℕ × ℕ)) (st : List Char × List Char),
      (ps.foldl (tdStep L) st).2 = ps.foldl (tdSetStep L) st.2 := by
  intro ps
  induction ps with
  | nil => intro st; rfl
  | cons p ps ih => intro st; exact ih (tdStep L st p)

theorem foldl_tdSetStep_length (L : List Char) :
    ∀ (ps : List (ℕ × ℕ)) (R' : List Char),
      (ps.foldl (tdSetStep L) R').length = R'.length := by
  intro ps
  induction ps with
  | nil => intro R'; rfl
  | cons p ps ih =>
    intro R'
    rw [List.foldl_cons, ih]
    exact List.length_set _ _ _

theorem foldl_tdSetStep_getD_preserve (L : List Char) :
    ∀ (ps : List (ℕ × ℕ)) (R' : List Char) (q : ℕ), q ∉ ps.map Prod.snd →
      (ps.foldl (tdSetStep L) R').getD q ' ' = R'.getD q ' ' := by
  intro ps
  induction ps with
  | nil => intro R' q _; rfl
  | cons p ps ih =>
    intro R' q hq
    rw [List.map_cons, List.mem_cons] at hq
    push_neg at hq
    rw [List.foldl_cons, ih _ _ hq.2]
    unfold tdSetStep
    rw [List.getD_eq_getElem?_getD, List.getElem?_set_ne (fun hh => hq.1 hh.symm),
      ← List.getD_eq_getElem?_getD]

theorem foldl_tdSetStep_getD (L : List Char) :
    ∀ (ps : List (ℕ × ℕ)) (R' : List Char), (ps.map Prod.snd).Nodup →
      (∀ p ∈ ps, p.2 < R'.length) → ∀ k, (hk : k < ps.length) →
      (ps.foldl (tdSetStep L) R').getD ps[k].2 ' ' = L.getD ps[k].1 ' ' := by
  intro ps
  induction ps with
  | nil => intro R' _ _ k hk; cases hk
  | cons p ps ih =>
    intro R' hnd hb k hk
    cases k with
    | zero =>
      rw [List.foldl_cons]
      simp only [List.getElem_cons_zero]
      have hp2 : p.2 ∉ ps.map Prod.snd := (List.nodup_cons.mp (by simpa using hnd)).1
      rw [foldl_tdSetStep_getD_preserve L ps _ _ hp2]
      unfold tdSetStep
      have hlt : p.2 < (R'.set p.2 (L.getD p.1 ' ')).length := by
        rw [List.length_set]
        exact hb p (List.mem_cons_self p ps)
      rw [List.getD_eq_getElem _ _ hlt, List.getElem_set_self]
    | succ k =>
      rw [List.foldl_cons]
      simp only [List.getElem_cons_succ]
      have hk' : k < ps.length := by simpa using hk
      exact ih (tdSetStep L R' p)
        (by simpa using (List.nodup_cons.mp (by simpa using hnd)).2)
        (by intro q hq
            show q.2 < (R'.set p.2 (L.getD p.1 ' ')).length
            rw [List.length_set]
            exact hb q (List.mem_cons_of_mem p hq))
        k hk'

theorem tdFold_out (L R : List Char) (hLnd : L.Nodup) (hRnd : R.Nodup)
    (hdisj : ∀ c ∈ L, c ∉ R) :
    ∀ (ps : List (ℕ × ℕ)), (ps.map Prod.fst).Nodup → (ps.map Prod.snd).Nodup →
      (∀ p ∈ ps, p.1 < L.length) → (∀ p ∈ ps, p.2 < R.length) →
      (ps.foldl (tdStep L) (L ++ R, R)).1 =
        remaining L (ps.map Prod.fst) ++ remaining R (ps.map Prod.snd) := by
  intro ps
  induction ps using List.reverseRecOn with
  | nil =>
    intro _ _ _ _
    simp [remaining_nil]
  | append_singleton ps p ih =>
    intro hf hs hbl hbr
    rw [List.map_append] at hf
    rw [List.map_append] at hs
    have hf1 : (ps.map Prod.fst).Nodup := (List.nodup_append.mp hf).1
    have hs1 : (ps.map Prod.snd).Nodup := (List.nodup_append.mp hs).1
    have hp1new : p.1 ∉ ps.map Prod.fst := by
      intro hmem
      exact (List.nodup_append.mp hf).2.2 hmem (by simp)
    have hp2new : p.2 ∉ ps.map Prod.snd := by
      intro hmem
      exact (List.nodup_append.mp hs).2.2 hmem (by simp)
    have hbl1 : ∀ q ∈ ps, q.1 < L.length := fun q hq => hbl q (List.mem_append_left _ hq)
    have hbr1 : ∀ q ∈ ps, q.2 < R.length := fun q hq => hbr q (List.mem_append_left _ hq)
    have hpl : p.1 < L.length := hbl p (List.mem_append_right _ (by simp))
    have hpr : p.2 < R.length := hbr p (List.mem_append_right _ (by simp))
    rw [List.foldl_append, List.foldl_cons, List.foldl_nil]
    have hsnd : (ps.foldl (tdStep L) (L ++ R, R)).2.getD p.2 ' ' = R.getD p.2 ' ' := by
      rw [foldl_tdStep_snd, foldl_tdSetStep_getD_preserve L ps R p.2 hp2new]
    show ((ps.foldl (tdStep L) (L ++ R, R)).1.erase
        ((ps.foldl (tdStep L) (L ++ R, R)).2.getD p.2 ' ')).erase (L.getD p.1 ' ') = _
    rw [hsnd, ih hf1 hs1 hbl1 hbr1]
    rw [List.getD_eq_getElem _ _ hpr, List.getD_eq_getElem _ _ hpl]
    have hRnotinL : R[p.2] ∉ remaining L (ps.map Prod.fst) := by
      intro hmem
      exact hdisj _ (mem_remaining_sub hmem) (List.getElem_mem hpr)
    rw [List.erase_append_right _ hRnotinL]
    rw [remaining_erase hRnd hpr]
    have hLinrem : L[p.1] ∈ remaining L (ps.map Prod.fst) :=
      (mem_remaining_iff hLnd hpl _).mpr hp1new
    rw [List.erase_append_left _ hLinrem]
    rw [remaining_erase hLnd hpl]
    rw [List.map_append, List.map_append]
    rfl

theorem getD_map_pair {α : Type} (nm : String) (P : List α)
    (g : α → List ℕ) (d : α) (m : ℕ) (hm : m < P.length) :
    ((P.map (fun combo => (nm, g combo))).getD m ("", [])) =
      (nm, g (P.getD m d)) := by
  rw [List.getD_eq_getElem _ _ (by rw [List.length_map]; exact hm),
    List.getElem_map, List.getD_eq_getElem _ _ hm]

theorem getD_map_lookup {α : Type} (X : List α) (f : α → ℕ) (j : ℕ)
    (hj : j < X.length) : (X.map f).getD j 0 = f X[j] := by
  rw [List.getD_eq_getElem _ _ (by rw [List.length_map]; exact hj),
    List.getElem_map]

/-- C6: the tensordot lowering labels the left operand from the
lowercase alphabet and the right one from the disjoint uppercase
alphabet, sets the right label of each contracted pair to the paired
left label, outputs the remaining left labels in order followed by the
remaining right labels in order, and hands `atop` the combining function
`many(binop=tensordot, reduction=sum, axes)` — which sums the pairwise
block contractions — over task arguments whose contracted-label
coordinates match pairwise in every gathered combination. -/
theorem tensordot_spec (laxes raxes : List ℕ) (out : String)
    (lhs rhs A : Dask.Array)
    (hlen : laxes.length = raxes.length)
    (hlno : laxes.Nodup) (hrno : raxes.Nodup)
    (hlb : ∀ l ∈ laxes, l < lhs.ndim) (hrb : ∀ r ∈ raxes, r < rhs.ndim)
    (h26l : lhs.ndim ≤ 26) (h26r : rhs.ndim ≤ 26)
    (h : compute_up_tensordot laxes raxes out lhs rhs = some A) :
    (∀ c ∈ alphabet.take lhs.ndim, c ∉ ALPHABET.take rhs.ndim)
    ∧ (∀ k, k < laxes.length →
        (tdIndices laxes raxes lhs rhs).2.getD (raxes.getD k 0) ' ' =
          (alphabet.take lhs.ndim).getD (laxes.getD k 0) ' ')
    ∧ (tdIndices laxes raxes lhs rhs).1 =
        remaining (alphabet.take lhs.ndim) laxes ++
          remaining (ALPHABET.take rhs.ndim) raxes
    ∧ atop (Func.many Func.tensordotF Func.sumF (laxes, raxes)) out
        (tdIndices laxes raxes lhs rhs).1
        [(lhs, alphabet.take lhs.ndim),
         (rhs, (tdIndices laxes raxes lhs rhs).2)] = some A
    ∧ (∀ (binop : Key → Key → ℕ) (a b : List Key),
        many binop (fun l => l.sum) a b = (List.zipWith binop a b).sum)
    ∧ (∃ G, top (Func.many Func.tensordotF Func.sumF (laxes, raxes)) out
          (tdIndices laxes raxes lhs rhs).1
          (argSpecs [(lhs, alphabet.take lhs.ndim),
                     (rhs, (tdIndices laxes raxes lhs rhs).2)]) = some G
        ∧ ∀ e ∈ G, e.2.func = Func.many Func.tensordotF Func.sumF (laxes, raxes)
            ∧ ∃ ka kb, e.2.args = [ka, kb]
              ∧ ka.length = kb.length
              ∧ ∀ m, m < ka.length → ∀ k, k < laxes.length →
                  (ka.getD m ("", [])).2.getD (laxes.getD k 0) 0 =
                  (kb.getD m ("", [])).2.getD (raxes.getD k 0) 0) := by
  have halphnd : alphabet.Nodup := by decide
  have hALPHnd : ALPHABET.Nodup := by decide
  have hLnd : (alphabet.take lhs.ndim).Nodup :=
    (List.take_sublist _ _).nodup halphnd
  have hRnd : (ALPHABET.take rhs.ndim).Nodup :=
    (List.take_sublist _ _).nodup hALPHnd
  have hLlen : (alphabet.take lhs.ndim).length = lhs.ndim := by
    rw [List.length_take]
    exact min_eq_left h26l
  have hRlen : (ALPHABET.take rhs.ndim).length = rhs.ndim := by
    rw [List.length_take]
    exact min_eq_left h26r
  have hdisjAB : ∀ c ∈ alphabet, c ∉ ALPHABET := by decide
  have hdisj : ∀ c ∈ alphabet.take lhs.ndim, c ∉ ALPHABET.take rhs.ndim := by
    intro c hc hcR
    exact hdisjAB c ((List.take_sublist _ _).subset hc)
      ((List.take_sublist _ _).subset hcR)
  have hpsfst : (laxes.zip raxes).map Prod.fst = laxes :=
    List.map_fst_zip _ _ (le_of_eq hlen)
  have hpssnd : (laxes.zip raxes).map Prod.snd = raxes :=
    List.map_snd_zip _ _ (le_of_eq hlen.symm)
  have hpslen : (laxes.zip raxes).length = laxes.length := by
    rw [List.length_zip, hlen, min_self]
  have hbl : ∀ p ∈ laxes.zip raxes, p.1 < (alphabet.take lhs.ndim).length := by
    intro p hp
    rw [hLlen]
    exact hlb p.1 (List.of_mem_zip hp).1
  have hbr : ∀ p ∈ laxes.zip raxes, p.2 < (ALPHABET.take rhs.ndim).length := by
    intro p hp
    rw [hRlen]
    exact hrb p.2 (List.of_mem_zip hp).2
  -- the final right index, its length, and part (2)
  have hsnd : (tdIndices laxes raxes lhs rhs).2 =
      (laxes.zip raxes).foldl (tdSetStep (alphabet.take lhs.ndim))
        (ALPHABET.take rhs.ndim) := by
    rw [tdIndices_eq_foldl]
    exact foldl_tdStep_snd _ _ _
  have hR'len : (tdIndices laxes raxes lhs rhs).2.length =
      (ALPHABET.take rhs.ndim).length := by
    rw [hsnd]
    exact foldl_tdSetStep_length _ _ _
  have hpart2 : ∀ k, k < laxes.length →
      (tdIndices laxes raxes lhs rhs).2.getD (raxes.getD k 0) ' ' =
        (alphabet.take lhs.ndim).getD (laxes.getD k 0) ' ' := by
    intro k hk
    have hkz : k < (laxes.zip raxes).length := by rw [hpslen]; exact hk
    have := foldl_tdSetStep_getD (alphabet.take lhs.ndim) (laxes.zip raxes)
      (ALPHABET.take rhs.ndim) (by rw [hpssnd]; exact hrno) hbr k hkz
    rw [List.getElem_zip] at this
    rw [hsnd]
    rw [List.getD_eq_getElem raxes 0 (by rw [← hlen]; exact hk),
      List.getD_eq_getElem laxes 0 hk]
    exact this
  -- part (3)
  have hpart3 : (tdIndices laxes raxes lhs rhs).1 =
      remaining (alphabet.take lhs.ndim) laxes ++
        remaining (ALPHABET.take rhs.ndim) raxes := by
    rw [tdIndices_eq_foldl]
    have := tdFold_out (alphabet.take lhs.ndim) (ALPHABET.take rhs.ndim)
      hLnd hRnd hdisj (laxes.zip raxes)
      (by rw [hpsfst]; exact hlno) (by rw [hpssnd]; exact hrno) hbl hbr
    rw [hpsfst, hpssnd] at this
    exact this
  refine ⟨hdisj, hpart2, hpart3, h, fun binop a b => rfl, ?_⟩
  -- part (6): matching contracted coordinates inside the tasks
  have hA : atop (Func.many Func.tensordotF Func.sumF (laxes, raxes)) out
      (tdIndices laxes raxes lhs rhs).1
      [(lhs, alphabet.take lhs.ndim),
       (rhs, (tdIndices laxes raxes lhs rhs).2)] = some A := h
  obtain ⟨G, htop, _, _, _, _⟩ := atop_eq_some hA
  refine ⟨G, htop, ?_⟩
  intro e he
  obtain ⟨ds, od, h1, h2, rfl⟩ := top_eq_some htop
  rw [List.mem_map] at he
  obtain ⟨coords, hc, rfl⟩ := he
  refine ⟨rfl, ?_⟩
  -- every contracted label lies in both operands' label tuples
  have hmemdum : ∀ x ∈ (topLabels (argSpecs
      [(lhs, alphabet.take lhs.ndim),
       (rhs, (tdIndices laxes raxes lhs rhs).2)])).filter
        (fun i => i ∉ (tdIndices laxes raxes lhs rhs).1),
      x ∈ alphabet.take lhs.ndim ∧ x ∈ (tdIndices laxes raxes lhs rhs).2 := by
    intro x hx
    rw [List.mem_filter] at hx
    obtain ⟨hxl, hxp⟩ := hx
    have hxnot : x ∉ (tdIndices laxes raxes lhs rhs).1 := by simpa using hxp
    have hxin : x ∈ alphabet.take lhs.ndim ∨
        x ∈ (tdIndices laxes raxes lhs rhs).2 := by
      unfold topLabels at hxl
      rw [List.mem_dedup] at hxl
      simp only [argSpecs, List.map_cons, List.map_nil, List.flatMap_cons,
        List.flatMap_nil, List.append_nil] at hxl
      exact List.mem_append.mp hxl
    cases hxin with
    | inl hxL =>
      obtain ⟨pL, hpL, rfl⟩ := List.mem_iff_getElem.mp hxL
      have hpLlax : pL ∈ laxes := by
        by_contra hno
        apply hxnot
        rw [hpart3]
        exact List.mem_append_left _
          ((mem_remaining_iff hLnd hpL laxes).mpr hno)
      obtain ⟨k, hk, hkeq⟩ := List.mem_iff_getElem.mp hpLlax
      have h2k := hpart2 k hk
      rw [List.getD_eq_getElem raxes 0 (by rw [← hlen]; exact hk),
        List.getD_eq_getElem laxes 0 hk,
        List.getD_eq_getElem _ _ (by rw [hR'len, hRlen]; exact hrb _ (List.getElem_mem _)),
        List.getD_eq_getElem _ _ (by rw [hLlen]; exact hlb _ (List.getElem_mem _))] at h2k
      refine ⟨List.getElem_mem hpL, ?_⟩
      have hrkb : raxes[k] < (tdIndices laxes raxes lhs rhs).2.length := by
        rw [hR'len, hRlen]
        exact hrb _ (List.getElem_mem _)
      have hx2 : (alphabet.take lhs.ndim)[pL] =
          (tdIndices laxes raxes lhs rhs).2[raxes[k]] := by
        rw [h2k]
        congr 1
        exact hkeq.symm
      rw [hx2]
      exact List.getElem_mem hrkb
    | inr hxR =>
      obtain ⟨q, hq, rfl⟩ := List.mem_iff_getElem.mp hxR
      have hqR : q < (ALPHABET.take rhs.ndim).length := by rw [← hR'len]; exact hq
      by_cases hq2 : q ∈ raxes
      · obtain ⟨k, hk, hkeq⟩ := List.mem_iff_getElem.mp hq2
        have hk' : k < laxes.length := by rw [hlen]; exact hk
        have h2k := hpart2 k hk'
        rw [List.getD_eq_getElem raxes 0 hk,
          List.getD_eq_getElem laxes 0 hk',
          List.getD_eq_getElem _ _ (by rw [hR'len, hRlen]; exact hrb _ (List.getElem_mem _)),
          List.getD_eq_getElem _ _ (by rw [hLlen]; exact hlb _ (List.getElem_mem _))] at h2k
        have hlkb : laxes[k] < (alphabet.take lhs.ndim).length := by
          rw [hLlen]
          exact hlb _ (List.getElem_mem _)
        constructor
        · have hx2 : (tdIndices laxes raxes lhs rhs).2[q] =
              (alphabet.take lhs.ndim)[laxes[k]] := by
            rw [← h2k]
            congr 1
            exact hkeq.symm
          rw [hx2]
          exact List.getElem_mem hlkb
        · exact List.getElem_mem hq
      · exfalso
        apply hxnot
        have hpres : (tdIndices laxes raxes lhs rhs).2.getD q ' ' =
            (ALPHABET.take rhs.ndim).getD q ' ' := by
          rw [hsnd]
          exact foldl_tdSetStep_getD_preserve _ _ _ _ (by rw [hpssnd]; exact hq2)
        rw [List.getD_eq_getElem _ _ hq, List.getD_eq_getElem _ _ hqR] at hpres
        rw [hpres, hpart3]
        exact List.mem_append_right _
          ((mem_remaining_iff hRnd hqR raxes).mpr hq2)
  -- both operands gather over the same contracted labels
  simp only [argSpecs, List.map_cons, List.map_nil]
  have hmineL : ((topLabels (argSpecs
      [(lhs, alphabet.take lhs.ndim),
       (rhs, (tdIndices laxes raxes lhs rhs).2)])).filter
        (fun i => i ∉ (tdIndices laxes raxes lhs rhs).1)).filter
      (fun d => d ∈ alphabet.take lhs.ndim) =
      (topLabels (argSpecs
      [(lhs, alphabet.take lhs.ndim),
       (rhs, (tdIndices laxes raxes lhs rhs).2)])).filter
        (fun i => i ∉ (tdIndices laxes raxes lhs rhs).1) := by
    apply List.filter_eq_self.mpr
    intro a ha
    simpa using (hmemdum a ha).1
  have hmineR : ((topLabels (argSpecs
      [(lhs, alphabet.take lhs.ndim),
       (rhs, (tdIndices laxes raxes lhs rhs).2)])).filter
        (fun i => i ∉ (tdIndices laxes raxes lhs rhs).1)).filter
      (fun d => d ∈ (tdIndices laxes raxes lhs rhs).2) =
      (topLabels (argSpecs
      [(lhs, alphabet.take lhs.ndim),
       (rhs, (tdIndices laxes raxes lhs rhs).2)])).filter
        (fun i => i ∉ (tdIndices laxes raxes lhs rhs).1) := by
    apply List.filter_eq_self.mpr
    intro a ha
    simpa using (hmemdum a ha).2
  simp only [argKeys, argSpecs, List.map_cons, List.map_nil] at hmineL hmineR ⊢
  rw [hmineL, hmineR]
  refine ⟨_, _, rfl, by rw [List.length_map, List.length_map], ?_⟩
  intro m hm k hk
  rw [List.length_map] at hm
  rw [getD_map_pair lhs.name _ _ [] m hm, getD_map_pair rhs.name _ _ [] m hm]
  dsimp only
  have hlk : laxes[k] < (alphabet.take lhs.ndim).length := by
    rw [hLlen]
    exact hlb _ (List.getElem_mem hk)
  have hrk : raxes[k] < (tdIndices laxes raxes lhs rhs).2.length := by
    rw [hR'len, hRlen]
    exact hrb _ (List.getElem_mem (by rw [← hlen]; exact hk))
  rw [List.getD_eq_getElem laxes 0 hk,
    List.getD_eq_getElem raxes 0 (by rw [← hlen]; exact hk)]
  rw [getD_map_lookup _ _ _ hlk, getD_map_lookup _ _ _ hrk]
  have h2k := hpart2 k hk
  rw [List.getD_eq_getElem raxes 0 (by rw [← hlen]; exact hk),
    List.getD_eq_getElem laxes 0 hk,
    List.getD_eq_getElem _ _ hrk,
    List.getD_eq_getElem _ _ hlk] at h2k
  rw [h2k]

/-- Witness for C6: contracting left axis 1 with right axis 0 of two
(4,4)/(2,2) arrays; labels become `['a','b']` and `['b','B']`, output
labels `['a','B']`, and each task pairs matching contracted block
coordinates. -/
theorem tensordot_spec_w :
    (∀ c ∈ alphabet.take (Dask.Array.mk [(("m",[0,0]), ⟨Func.prim 0, []⟩)] "m" [4,4] [2,2]).ndim,
        c ∉ ALPHABET.take (Dask.Array.mk [(("n",[0,0]), ⟨Func.prim 0, []⟩)] "n" [4,4] [2,2]).ndim)
    ∧ (∀ k, k < ([1] : List ℕ).length →
        (tdIndices [1] [0] (Dask.Array.mk [(("m",[0,0]), ⟨Func.prim 0, []⟩)] "m" [4,4] [2,2])
          (Dask.Array.mk [(("n",[0,0]), ⟨Func.prim 0, []⟩)] "n" [4,4] [2,2])).2.getD
            (([0] : List ℕ).getD k 0) ' ' =
          (alphabet.take (Dask.Array.mk [(("m",[0,0]), ⟨Func.prim 0, []⟩)] "m" [4,4] [2,2]).ndim).getD
            (([1] : List ℕ).getD k 0) ' ')
    ∧ (tdIndices [1] [0] (Dask.Array.mk [(("m",[0,0]), ⟨Func.prim 0, []⟩)] "m" [4,4] [2,2])
        (Dask.Array.mk [(("n",[0,0]), ⟨Func.prim 0, []⟩)] "n" [4,4] [2,2])).1 =
        remaining (alphabet.take (Dask.Array.mk [(("m",[0,0]), ⟨Func.prim 0, []⟩)] "m" [4,4] [2,2]).ndim) [1] ++
          remaining (ALPHABET.take (Dask.Array.mk [(("n",[0,0]), ⟨Func.prim 0, []⟩)] "n" [4,4] [2,2]).ndim) [0]
    ∧ atop (Func.many Func.tensordotF Func.sumF ([1], [0])) "z"
        (tdIndices [1] [0] (Dask.Array.mk [(("m",[0,0]), ⟨Func.prim 0, []⟩)] "m" [4,4] [2,2])
          (Dask.Array.mk [(("n",[0,0]), ⟨Func.prim 0, []⟩)] "n" [4,4] [2,2])).1
        [((Dask.Array.mk [(("m",[0,0]), ⟨Func.prim 0, []⟩)] "m" [4,4] [2,2]),
          alphabet.take (Dask.Array.mk [(("m",[0,0]), ⟨Func.prim 0, []⟩)] "m" [4,4] [2,2]).ndim),
         ((Dask.Array.mk [(("n",[0,0]), ⟨Func.prim 0, []⟩)] "n" [4,4] [2,2]),
          (tdIndices [1] [0] (Dask.Array.mk [(("m",[0,0]), ⟨Func.prim 0, []⟩)] "m" [4,4] [2,2])
            (Dask.Array.mk [(("n",[0,0]), ⟨Func.prim 0, []⟩)] "n" [4,4] [2,2])).2)] =
        some (Dask.Array.mk
          [(("z",[0,0]), ⟨Func.many Func.tensordotF Func.sumF ([1],[0]),
              [[("m",[0,0]),("m",[0,1])],[("n",[0,0]),("n",[1,0])]]⟩),
           (("z",[0,1]), ⟨Func.many Func.tensordotF Func.sumF ([1],[0]),
              [[("m",[0,0]),("m",[0,1])],[("n",[0,1]),("n",[1,1])]]⟩),
           (("z",[1,0]), ⟨Func.many Func.tensordotF Func.sumF ([1],[0]),
              [[("m",[1,0]),("m",[1,1])],[("n",[0,0]),("n",[1,0])]]⟩),
           (("z",[1,1]), ⟨Func.many Func.tensordotF Func.sumF ([1],[0]),
              [[("m",[1,0]),("m",[1,1])],[("n",[0,1]),("n",[1,1])]]⟩),
           (("m",[0,0]), ⟨Func.prim 0, []⟩),
           (("n",[0,0]), ⟨Func.prim 0, []⟩)] "z" [4,4] [2,2])
    ∧ (∀ (binop : Key → Key → ℕ) (a b : List Key),
        many binop (fun l => l.sum) a b = (List.zipWith binop a b).sum)
    ∧ (∃ G, top (Func.many Func.tensordotF Func.sumF ([1], [0])) "z"
          (tdIndices [1] [0] (Dask.Array.mk [(("m",[0,0]), ⟨Func.prim 0, []⟩)] "m" [4,4] [2,2])
            (Dask.Array.mk [(("n",[0,0]), ⟨Func.prim 0, []⟩)] "n" [4,4] [2,2])).1
          (argSpecs [((Dask.Array.mk [(("m",[0,0]), ⟨Func.prim 0, []⟩)] "m" [4,4] [2,2]),
              alphabet.take (Dask.Array.mk [(("m",[0,0]), ⟨Func.prim 0, []⟩)] "m" [4,4] [2,2]).ndim),
             ((Dask.Array.mk [(("n",[0,0]), ⟨Func.prim 0, []⟩)] "n" [4,4] [2,2]),
              (tdIndices [1] [0] (Dask.Array.mk [(("m",[0,0]), ⟨Func.prim 0, []⟩)] "m" [4,4] [2,2])
                (Dask.Array.mk [(("n",[0,0]), ⟨Func.prim 0, []⟩)] "n" [4,4] [2,2])).2)]) = some G
        ∧ ∀ e ∈ G, e.2.func = Func.many Func.tensordotF Func.sumF ([1], [0])
            ∧ ∃ ka kb, e.2.args = [ka, kb]
              ∧ ka.length = kb.length
              ∧ ∀ m, m < ka.length → ∀ k, k < ([1] : List ℕ).length →
                  (ka.getD m ("", [])).2.getD (([1] : List ℕ).getD k 0) 0 =
                  (kb.getD m ("", [])).2.getD (([0] : List ℕ).getD k 0) 0) :=
  tensordot_spec [1] [0] "z"
    (Dask.Array.mk [(("m",[0,0]), ⟨Func.prim 0, []⟩)] "m" [4,4] [2,2])
    (Dask.Array.mk [(("n",[0,0]), ⟨Func.prim 0, []⟩)] "n" [4,4] [2,2])
    (Dask.Array.mk
      [(("z",[0,0]), ⟨Func.many Func.tensordotF Func.sumF ([1],[0]),
          [[("m",[0,0]),("m",[0,1])],[("n",[0,0]),("n",[1,0])]]⟩),
       (("z",[0,1]), ⟨Func.many Func.tensordotF Func.sumF ([1],[0]),
          [[("m",[0,0]),("m",[0,1])],[("n",[0,1]),("n",[1,1])]]⟩),
       (("z",[1,0]), ⟨Func.many Func.tensordotF Func.sumF ([1],[0]),
          [[("m",[1,0]),("m",[1,1])],[("n",[0,0]),("n",[1,0])]]⟩),
       (("z",[1,1]), ⟨Func.many Func.tensordotF Func.sumF ([1],[0]),
          [[("m",[1,0]),("m",[1,1])],[("n",[0,1]),("n",[1,1])]]⟩),
       (("m",[0,0]), ⟨Func.prim 0, []⟩),
       (("n",[0,0]), ⟨Func.prim 0, []⟩)] "z" [4,4] [2,2])
    rfl (by decide) (by decide) (by decide) (by decide) (by decide) (by decide)
    (by decide)

end Dask
